import Mathlib

/-!
# bufioc: buffered I/O over closable streams

A shallow embedding of the Go package `bufioc` (`reader.go`, `writer.go`).

`bufioc.Reader` and `bufioc.Writer` pair an `io.ReadCloser` / `io.WriteCloser`
with a `*bufio.Reader` / `*bufio.Writer` of the Go standard library built over
the same stream.  Every method other than `Close` and `Reset` forwards to the
`bufio` method of the same name, so the parts of `bufio` that are reached are
transcribed here as well, under the names `Bufio.*`.

Modelling conventions

* A Go `error` is `Option Error`; `none` is `nil`.
* A stream is an object with hidden state: a state, the functions that answer a
  call in a state, and a log of the calls received so far (the call-counting
  test double).  The wrapper and its `bufio` half alias the same stream
  object; the embedding keeps the stream once, in the wrapper, and hands it to
  the `bufio` functions, which return it updated.
* A byte slice into the fixed buffer is the list of its elements; the buffer
  itself is a list whose length is the capacity, stale bytes included.
* A loop whose termination depends on the stream takes a bound on its number
  of iterations; the result is `none` when the bound is exhausted.
-/

namespace Bufioc

abbrev Byte := UInt8

/-- Go error values that the package can surface: the sentinels of `io` and
`bufio`, and any other error of the underlying stream, named by a number. -/
inductive Error where
  | EOF
  | ErrShortWrite
  | ErrNoProgress
  | ErrBufferFull
  | other (code : Nat)
  deriving DecidableEq, Repr

/-- What one pass through a loop body does: the function returns `r`, the loop
goes round again from the state `s`, or the run panics. -/
inductive Pass (ρ σ : Type 1) where
  | ret (r : ρ)
  | again (s : σ)
  | panic

/-! ## Underlying streams -/

/-- One call received by a writable stream: `Write(p)` with the count and error
it answered, or `Close()` with the error it answered. -/
inductive WCall where
  | write (p : List Byte) (n : Nat) (err : Option Error)
  | close (err : Option Error)
  deriving DecidableEq, Repr

/-- An `io.WriteCloser`: hidden state, the answers of `Write` and `Close` in a
state, and the log of calls received (oldest first). -/
structure WriteCloser where
  σ : Type
  st : σ
  write : σ → List Byte → (Nat × Option Error) × σ
  close : σ → Option Error × σ
  log : List WCall

/-- `wc.Write(p)`.  The `io.Writer` contract `0 <= n <= len(p)` is part of the
stream type: the count answered is capped at `len(p)`. -/
def WriteCloser.Write (wc : WriteCloser) (p : List Byte) :
    Nat × Option Error × WriteCloser :=
  let r := wc.write wc.st p
  let n := min r.1.1 p.length
  (n, r.1.2, ⟨wc.σ, r.2, wc.write, wc.close, wc.log ++ [WCall.write p n r.1.2]⟩)

/-- `wc.Close()`. -/
def WriteCloser.Close (wc : WriteCloser) : Option Error × WriteCloser :=
  let r := wc.close wc.st
  (r.1, ⟨wc.σ, r.2, wc.write, wc.close, wc.log ++ [WCall.close r.1]⟩)

/-- Bytes a logged call handed over to the stream. -/
def WCall.accepted : WCall → List Byte
  | WCall.write p n _ => p.take n
  | WCall.close _ => []

/-- Whether a logged call is a `Close`. -/
def WCall.isClose : WCall → Bool
  | WCall.write _ _ _ => false
  | WCall.close _ => true

/-- Whether a logged call is a `Write`. -/
def WCall.isWrite : WCall → Bool
  | WCall.write _ _ _ => true
  | WCall.close _ => false

/-- All bytes the stream has received, in order. -/
def WriteCloser.received (wc : WriteCloser) : List Byte :=
  (wc.log.map WCall.accepted).flatten

/-- Number of `Close` calls the stream has received. -/
def WriteCloser.closeCalls (wc : WriteCloser) : Nat :=
  wc.log.countP WCall.isClose

/-- Number of `Write` calls the stream has received. -/
def WriteCloser.writeCalls (wc : WriteCloser) : Nat :=
  wc.log.countP WCall.isWrite

/-- The stream accepts every write in full, in every state. -/
def WriteCloser.AcceptsAll (wc : WriteCloser) : Prop :=
  ∀ (s : wc.σ) (p : List Byte), (wc.write s p).1 = (p.length, none)

/-- One call received by a readable stream: `Read(p)` with `len(p)`, the bytes
it delivered and the error it answered, or `Close()` with its error. -/
inductive RCall where
  | read (len : Nat) (got : List Byte) (err : Option Error)
  | close (err : Option Error)
  deriving DecidableEq, Repr

/-- An `io.ReadCloser`: hidden state, the answers of `Read` and `Close` in a
state, and the log of calls received (oldest first). -/
structure ReadCloser where
  σ : Type
  st : σ
  read : σ → Nat → (List Byte × Option Error) × σ
  close : σ → Option Error × σ
  log : List RCall

/-- `rc.Read(p)` with `len(p) = len`: the bytes stored into `p` (their number
is the count `n`) and the error.  The `io.Reader` contract `0 <= n <= len(p)`
is part of the stream type: the bytes answered are cut at `len(p)`. -/
def ReadCloser.Read (rc : ReadCloser) (len : Nat) :
    List Byte × Option Error × ReadCloser :=
  let r := rc.read rc.st len
  let got := r.1.1.take len
  (got, r.1.2, ⟨rc.σ, r.2, rc.read, rc.close, rc.log ++ [RCall.read len got r.1.2]⟩)

/-- `rc.Close()`. -/
def ReadCloser.Close (rc : ReadCloser) : Option Error × ReadCloser :=
  let r := rc.close rc.st
  (r.1, ⟨rc.σ, r.2, rc.read, rc.close, rc.log ++ [RCall.close r.1]⟩)

/-- Whether a logged call is a `Close`. -/
def RCall.isClose : RCall → Bool
  | RCall.read _ _ _ => false
  | RCall.close _ => true

/-- Number of `Close` calls the stream has received. -/
def ReadCloser.closeCalls (rc : ReadCloser) : Nat :=
  rc.log.countP RCall.isClose

/-! ## `bufio.Writer` (Go standard library) -/

/-- Go `defaultBufSize`. -/
def Bufio.defaultBufSize : Nat := 4096

/-- Go builtin `copy(buf[off:], src)`: the buffer after the copy and the number
of bytes copied, `min(len(src), len(buf) - off)`. -/
def Bufio.copyAt (buf : List Byte) (off : Nat) (src : List Byte) : List Byte × Nat :=
  let k := min src.length (buf.length - off)
  (buf.take off ++ src.take k ++ buf.drop (off + k), k)

/-- Go `bufio.Writer`, without the field `wr`: the stream is the one held by
the wrapper. -/
structure Bufio.Writer where
  err : Option Error
  buf : List Byte
  n : Nat

/-- Go `bufio.NewWriterSize`: `if size <= 0 { size = defaultBufSize }`, then a
buffer of `size` bytes.  (The branch that returns an existing `*bufio.Writer`
is not reachable from `bufioc`: a `*bufio.Writer` has no `Close` method.) -/
def Bufio.NewWriterSize (size : Int) : Writer :=
  let size := if size ≤ 0 then (defaultBufSize : Int) else size
  { err := none, buf := List.replicate size.toNat 0, n := 0 }

/-- Go `bufio.NewWriter`. -/
def Bufio.NewWriter : Writer := NewWriterSize defaultBufSize

/-- The representation invariant of `bufio.Writer`: `n <= len(buf)`. -/
def Bufio.Writer.WF (b : Writer) : Prop := b.n ≤ b.buf.length

/-- Go `(*bufio.Writer).Size`: `len(b.buf)`. -/
def Bufio.Writer.Size (b : Writer) : Nat := b.buf.length

/-- Go `(*bufio.Writer).Available`: `len(b.buf) - b.n`. -/
def Bufio.Writer.Available (b : Writer) : Nat := b.buf.length - b.n

/-- Go `(*bufio.Writer).Buffered`: `b.n`. -/
def Bufio.Writer.Buffered (b : Writer) : Nat := b.n

/-- Go `(*bufio.Writer).Reset`: `b.err = nil; b.n = 0; b.wr = w`.  The stream
is rebound by the caller.  (The guards for `b == w` and for the nil buffer of
a zero-value `bufio.Writer` are not reachable from `bufioc`, whose writers
come from `bufio.NewWriter` and `bufio.NewWriterSize`.) -/
def Bufio.Writer.Reset (b : Writer) : Writer :=
  { b with err := none, n := 0 }

/-- Go `(*bufio.Writer).Flush`. -/
def Bufio.Writer.Flush (b : Writer) (wr : WriteCloser) : Option Error × Writer × WriteCloser :=
  match b.err with
  | some e => (some e, b, wr)
  | none =>
    if b.n = 0 then (none, b, wr)
    else
      let r := wr.Write (b.buf.take b.n)
      let n := r.1
      let err := if n < b.n ∧ r.2.1 = none then some Error.ErrShortWrite else r.2.1
      match err with
      | some e =>
        let buf := if 0 < n ∧ n < b.n
          then (b.buf.take b.n).drop n ++ b.buf.drop (b.n - n) else b.buf
        (some e, { err := some e, buf := buf, n := b.n - n }, r.2.2)
      | none => (none, { b with n := 0 }, r.2.2)

/-- The loop of Go `(*bufio.Writer).Write`:
`for len(p) > b.Available() && b.err == nil`.  Returns the writer, the
stream, the rest of `p` and the count `nn` at loop exit. -/
def Bufio.Writer.writeLoop : Nat → Writer → WriteCloser → List Byte → Nat →
    Option (Writer × WriteCloser × List Byte × Nat)
  | 0, b, wr, p, nn =>
    if p.length > b.Available ∧ b.err = none then none else some (b, wr, p, nn)
  | fuel + 1, b, wr, p, nn =>
    if p.length > b.Available ∧ b.err = none then
      if b.Buffered = 0 then
        -- Large write, empty buffer: write directly from p.
        let r := wr.Write p
        writeLoop fuel { b with err := r.2.1 } r.2.2 (p.drop r.1) (nn + r.1)
      else
        let c := copyAt b.buf b.n p
        let f := Writer.Flush { b with buf := c.1, n := b.n + c.2 } wr
        writeLoop fuel f.2.1 f.2.2 (p.drop c.2) (nn + c.2)
    else some (b, wr, p, nn)

/-- Go `(*bufio.Writer).Write`. -/
def Bufio.Writer.Write (fuel : Nat) (b : Writer) (wr : WriteCloser) (p : List Byte) :
    Option ((Nat × Option Error) × Writer × WriteCloser) :=
  match Writer.writeLoop fuel b wr p 0 with
  | none => none
  | some (b, wr, p, nn) =>
    match b.err with
    | some e => some ((nn, some e), b, wr)
    | none =>
      let c := copyAt b.buf b.n p
      some ((nn + c.2, none), { b with buf := c.1, n := b.n + c.2 }, wr)

/-! ## `bufio.Reader` (Go standard library) -/

/-- Go `minReadBufferSize`. -/
def Bufio.minReadBufferSize : Nat := 16

/-- Go `maxConsecutiveEmptyReads`. -/
def Bufio.maxConsecutiveEmptyReads : Nat := 100

/-- Go `bufio.Reader`, without the field `rd`: the stream is the one held by
the wrapper.  `r` and `w` are the read and write positions in `buf`. -/
structure Bufio.Reader where
  buf : List Byte
  r : Nat
  w : Nat
  err : Option Error
  lastByte : Int
  lastRuneSize : Int

/-- Go `(*bufio.Reader).reset`: a fresh reader state over the buffer `buf`. -/
def Bufio.Reader.reset (buf : List Byte) : Reader :=
  { buf := buf, r := 0, w := 0, err := none, lastByte := -1, lastRuneSize := -1 }

/-- Go `bufio.NewReaderSize`: a buffer of `max(size, minReadBufferSize)` bytes.
(The branch that returns an existing `*bufio.Reader` is not reachable from
`bufioc`: a `*bufio.Reader` has no `Close` method.) -/
def Bufio.NewReaderSize (size : Int) : Reader :=
  Reader.reset (List.replicate (max size (minReadBufferSize : Int)).toNat 0)

/-- Go `bufio.NewReader`. -/
def Bufio.NewReader : Reader := NewReaderSize defaultBufSize

/-- Go `(*bufio.Reader).Size`: `len(b.buf)`. -/
def Bufio.Reader.Size (b : Reader) : Nat := b.buf.length

/-- Go `(*bufio.Reader).Buffered`: `b.w - b.r`. -/
def Bufio.Reader.Buffered (b : Reader) : Nat := b.w - b.r

/-- Go `(*bufio.Reader).Reset`: `b.reset(b.buf, r)`.  The stream is rebound by
the caller.  (The guards for `b == r` and for the nil buffer of a zero-value
`bufio.Reader` are not reachable from `bufioc`, whose readers come from
`bufio.NewReader` and `bufio.NewReaderSize`.) -/
def Bufio.Reader.Reset (b : Reader) : Reader := Reader.reset b.buf

/-- The slice `b.buf[b.r:b.w]`: the buffered, unread bytes. -/
def Bufio.Reader.unread (b : Reader) : List Byte := (b.buf.take b.w).drop b.r

/-- The read loop of Go `(*bufio.Reader).fill`:
`for i := maxConsecutiveEmptyReads; i > 0; i--`, then
`b.err = io.ErrNoProgress`. -/
def Bufio.Reader.fillLoop : Nat → Reader → ReadCloser → Reader × ReadCloser
  | 0, b, rd => ({ b with err := some Error.ErrNoProgress }, rd)
  | i + 1, b, rd =>
    let x := rd.Read (b.buf.length - b.w)
    let b1 := { b with buf := b.buf.take b.w ++ x.1 ++ b.buf.drop (b.w + x.1.length),
                       w := b.w + x.1.length }
    match x.2.1 with
    | some e => ({ b1 with err := some e }, x.2.2)
    | none => if x.1.length > 0 then (b1, x.2.2) else fillLoop i b1 x.2.2

/-- The first statement of Go `(*bufio.Reader).fill`: if `b.r > 0`, slide the
unread bytes to the start of the buffer (`copy(b.buf, b.buf[b.r:b.w])`,
`b.w -= b.r`, `b.r = 0`). -/
def Bufio.Reader.slide (b : Reader) : Reader :=
  if b.r > 0
  then { b with buf := (copyAt b.buf 0 b.unread).1, w := b.w - b.r, r := 0 } else b

/-- Go `(*bufio.Reader).fill`: slide the unread bytes to the start of the
buffer, then read a new chunk.  `none` is the panic
`bufio: tried to fill full buffer`. -/
def Bufio.Reader.fill (b : Reader) (rd : ReadCloser) : Option (Reader × ReadCloser) :=
  let b := b.slide
  if b.w ≥ b.buf.length then none
  else some (Reader.fillLoop maxConsecutiveEmptyReads b rd)

/-- The representation invariant of `bufio.Reader`: `0 <= r <= w <= len(buf)`,
over a buffer that is not empty. -/
def Bufio.Reader.WF (b : Reader) : Prop :=
  b.r ≤ b.w ∧ b.w ≤ b.buf.length ∧ 0 < b.buf.length

/-- One pass through the loop `for b.r == b.w` of Go
`(*bufio.Reader).ReadByte` and, when the loop is left, the statements after
it. -/
def Bufio.Reader.readBytePass (b : Reader) (rd : ReadCloser) :
    Pass ((Byte × Option Error) × Reader × ReadCloser) (Reader × ReadCloser) :=
  if b.r = b.w then
    match b.err with
    | some e => Pass.ret ((0, some e), { b with err := none }, rd)
    | none =>
      match b.fill rd with
      | none => Pass.panic
      | some s => Pass.again s
  else
    match b.buf[b.r]? with
    | none => Pass.panic
    | some c => Pass.ret ((c, none), { b with r := b.r + 1, lastByte := c.toNat }, rd)

/-- The body of Go `(*bufio.Reader).ReadByte` after `b.lastRuneSize = -1`,
with at most `fuel` passes that go round the loop again.  `none` is a run that
does not return (a panic, or the bound exhausted). -/
def Bufio.Reader.readByteLoop : Nat → Reader → ReadCloser →
    Option ((Byte × Option Error) × Reader × ReadCloser)
  | 0, b, rd =>
    match b.readBytePass rd with
    | Pass.ret x => some x
    | Pass.again _ => none
    | Pass.panic => none
  | fuel + 1, b, rd =>
    match b.readBytePass rd with
    | Pass.ret x => some x
    | Pass.again s => readByteLoop fuel s.1 s.2
    | Pass.panic => none

/-- Go `(*bufio.Reader).ReadByte`. -/
def Bufio.Reader.ReadByte (fuel : Nat) (b : Reader) (rd : ReadCloser) :
    Option ((Byte × Option Error) × Reader × ReadCloser) :=
  Reader.readByteLoop fuel { b with lastRuneSize := -1 } rd

/-- Go `bytes.IndexByte`: the index of the first `c` in `s`, if any. -/
def Bufio.indexByte : List Byte → Byte → Option Nat
  | [], _ => none
  | x :: xs, c => if x = c then some 0 else (indexByte xs c).map (· + 1)

/-- One pass through the loop of Go `(*bufio.Reader).ReadSlice`, with the
search start `s`: a `break` with `line` and `err`, or `fill` and the next
search start. -/
def Bufio.Reader.readSlicePass (delim : Byte) (b : Reader) (rd : ReadCloser) (s : Nat) :
    Pass ((List Byte × Option Error) × Reader × ReadCloser) (Reader × ReadCloser × Nat) :=
  match indexByte ((b.buf.take b.w).drop (b.r + s)) delim with
  | some i =>
    Pass.ret (((b.buf.take (b.r + (i + s) + 1)).drop b.r, none),
      { b with r := b.r + ((i + s) + 1) }, rd)
  | none =>
    match b.err with
    | some e => Pass.ret ((b.unread, some e), { b with r := b.w, err := none }, rd)
    | none =>
      if b.Buffered ≥ b.buf.length then
        Pass.ret ((b.buf, some Error.ErrBufferFull), { b with r := b.w }, rd)
      else
        match b.fill rd with
        | none => Pass.panic
        | some x => Pass.again (x.1, x.2, b.w - b.r)

/-- The loop of Go `(*bufio.Reader).ReadSlice`, with at most `fuel` passes that
go round the loop again: `line`, `err` and the reader at the `break`. -/
def Bufio.Reader.readSliceLoop (delim : Byte) : Nat → Reader → ReadCloser → Nat →
    Option ((List Byte × Option Error) × Reader × ReadCloser)
  | 0, b, rd, s =>
    match b.readSlicePass delim rd s with
    | Pass.ret x => some x
    | Pass.again _ => none
    | Pass.panic => none
  | fuel + 1, b, rd, s =>
    match b.readSlicePass delim rd s with
    | Pass.ret x => some x
    | Pass.again x => readSliceLoop delim fuel x.1 x.2.1 x.2.2
    | Pass.panic => none

/-- Go `(*bufio.Reader).ReadSlice`: the loop, then the record of the last byte
of `line`. -/
def Bufio.Reader.ReadSlice (fuel : Nat) (b : Reader) (rd : ReadCloser) (delim : Byte) :
    Option ((List Byte × Option Error) × Reader × ReadCloser) :=
  match Reader.readSliceLoop delim fuel b rd 0 with
  | none => none
  | some ((line, err), b1, rd1) =>
    match line.getLast? with
    | some c => some ((line, err), { b1 with lastByte := c.toNat, lastRuneSize := -1 }, rd1)
    | none => some ((line, err), b1, rd1)

/-! ## `bufioc.Writer` (writer.go) -/

/-- The Go struct `Writer`: the stream `wc` and the `bufio.Writer` over it. -/
structure Writer where
  wc : WriteCloser
  w : Bufio.Writer

/-- Go `NewWriter`. -/
def NewWriter (wc : WriteCloser) : Writer :=
  { wc := wc, w := Bufio.NewWriter }

/-- Go `NewWriterSize`. -/
def NewWriterSize (wc : WriteCloser) (size : Int) : Writer :=
  { wc := wc, w := Bufio.NewWriterSize size }

/-- Go `(*Writer).Available`. -/
def Writer.Available (w : Writer) : Nat := w.w.Available

/-- Go `(*Writer).Buffered`. -/
def Writer.Buffered (w : Writer) : Nat := w.w.Buffered

/-- Go `(*Writer).Size`. -/
def Writer.Size (w : Writer) : Nat := w.w.Size

/-- Go `(*Writer).Flush`. -/
def Writer.Flush (w : Writer) : Option Error × Writer :=
  let f := w.w.Flush w.wc
  (f.1, { wc := f.2.2, w := f.2.1 })

/-- Go `(*Writer).Close`: flush; on a flush error close the stream and return
the flush error; otherwise return what the stream's `Close` returns. -/
def Writer.Close (w : Writer) : Option Error × Writer :=
  let f := w.w.Flush w.wc
  match f.1 with
  | some err =>
    let c := f.2.2.Close
    (some err, { wc := c.2, w := f.2.1 })
  | none =>
    let c := f.2.2.Close
    (c.1, { wc := c.2, w := f.2.1 })

/-- Go `(*Writer).Reset`.  Two stream objects exist before and after the call;
the third component is the one the wrapper is not bound to afterwards: the
argument, untouched, when the reset is aborted, and the old stream after its
`Close` when the argument is adopted. -/
def Writer.Reset (w : Writer) (wc : WriteCloser) : Option Error × Writer × WriteCloser :=
  let c := w.wc.Close
  match c.1 with
  | some err => (some err, { w with wc := c.2 }, wc)
  | none => (none, { wc := wc, w := w.w.Reset }, c.2)

/-- Go `(*Writer).Write`. -/
def Writer.Write (fuel : Nat) (w : Writer) (p : List Byte) :
    Option ((Nat × Option Error) × Writer) :=
  match w.w.Write fuel w.wc p with
  | none => none
  | some (r, b, wc) => some (r, { wc := wc, w := b })

/-! ## `bufioc.Reader` (reader.go) -/

/-- The Go struct `Reader`: the `bufio.Reader` and the stream `rc` under it. -/
structure Reader where
  r : Bufio.Reader
  rc : ReadCloser

/-- Go `NewReader`. -/
def NewReader (rc : ReadCloser) : Reader :=
  { rc := rc, r := Bufio.NewReader }

/-- Go `NewReaderSize`. -/
def NewReaderSize (rc : ReadCloser) (size : Int) : Reader :=
  { rc := rc, r := Bufio.NewReaderSize size }

/-- Go `(*Reader).Buffered`. -/
def Reader.Buffered (r : Reader) : Nat := r.r.Buffered

/-- Go `(*Reader).Size`. -/
def Reader.Size (r : Reader) : Nat := r.r.Size

/-- Go `(*Reader).Close`. -/
def Reader.Close (r : Reader) : Option Error × Reader :=
  let c := r.rc.Close
  (c.1, { r with rc := c.2 })

/-- Go `(*Reader).ReadByte`. -/
def Reader.ReadByte (fuel : Nat) (r : Reader) : Option ((Byte × Option Error) × Reader) :=
  match r.r.ReadByte fuel r.rc with
  | none => none
  | some (x, b, rc) => some (x, { r := b, rc := rc })

/-- Go `(*Reader).ReadSlice`. -/
def Reader.ReadSlice (fuel : Nat) (r : Reader) (delim : Byte) :
    Option ((List Byte × Option Error) × Reader) :=
  match r.r.ReadSlice fuel r.rc delim with
  | none => none
  | some (x, b, rc) => some (x, { r := b, rc := rc })

/-- Go `(*Reader).Reset`.  As for `Writer.Reset`, the third component is the
stream the wrapper is not bound to after the call. -/
def Reader.Reset (r : Reader) (rc : ReadCloser) : Option Error × Reader × ReadCloser :=
  let c := r.rc.Close
  match c.1 with
  | some err => (some err, { r with rc := c.2 }, rc)
  | none => (none, { rc := rc, r := r.r.Reset }, c.2)

/-- A client loop: call `ReadByte` until it returns an error; the bytes read,
the error that ended the loop, and the reader then.  `calls` bounds the number
of `ReadByte` calls. -/
def Reader.readAllBytes (fuel : Nat) : Nat → Reader → Option (List Byte × Error × Reader)
  | 0, _ => none
  | calls + 1, r =>
    match r.ReadByte fuel with
    | none => none
    | some ((_, some e), r1) => some ([], e, r1)
    | some ((c, none), r1) =>
      match readAllBytes fuel calls r1 with
      | none => none
      | some (bs, e, r2) => some (c :: bs, e, r2)

/-! ### Test doubles -/

/-- A sink that accepts every write and answers `Close` with `cerr`. -/
def sink (cerr : Option Error) : WriteCloser :=
  { σ := Unit, st := (), write := fun _ p => ((p.length, none), ()),
    close := fun _ => (cerr, ()), log := [] }

/-- A stream whose writes accept `k` bytes and fail with `werr`, and whose
`Close` answers `cerr`. -/
def failing (k : Nat) (werr cerr : Option Error) : WriteCloser :=
  { σ := Unit, st := (), write := fun _ _ => ((k, werr), ()),
    close := fun _ => (cerr, ()), log := [] }

/-- The `Read` of a source that holds `s.1` and delivers it in chunks: it
delivers the next planned chunk size `s.2.head` (all that fits once the plan is
used up), cut at `len(p)` and at the data left; with nothing left it answers
`0, io.EOF`.  When `eager`, the read that delivers the last byte answers
`io.EOF` along with it, as the `io.Reader` contract allows. -/
def chunkedRead (eager : Bool) (s : List Byte × List Nat) (len : Nat) :
    (List Byte × Option Error) × (List Byte × List Nat) :=
  if s.1 = [] then (([], some Error.EOF), s)
  else
    let k := min (s.2.headD len) len
    ((s.1.take k, if eager = true ∧ s.1.drop k = [] then some Error.EOF else none),
      (s.1.drop k, s.2.tail))

/-- A chunked source holding `data`, with the calls `log` behind it; its
`Close` answers `cerr`. -/
def chunkedFrom (log : List RCall) (data : List Byte) (plan : List Nat) (eager : Bool)
    (cerr : Option Error) : ReadCloser :=
  { σ := List Byte × List Nat, st := (data, plan), read := chunkedRead eager,
    close := fun s => (cerr, s), log := log }

/-- A fresh chunked source holding `data`. -/
def chunked (data : List Byte) (plan : List Nat) (eager : Bool) (cerr : Option Error) :
    ReadCloser :=
  chunkedFrom [] data plan eager cerr

/-- A stream whose `Close` fails with `cerr` the first `k` times it is called
and succeeds afterwards; it accepts every write. -/
def flaky (k : Nat) (cerr : Error) : WriteCloser :=
  { σ := Nat, st := 0, write := fun s p => ((p.length, none), s),
    close := fun s => (if s < k then some cerr else none, s + 1), log := [] }

/-- A source whose `Close` fails with `cerr` the first `k` times it is called
and succeeds afterwards; it holds no data. -/
def flakySource (k : Nat) (cerr : Error) : ReadCloser :=
  { σ := Nat, st := 0, read := fun s _ => (([], some Error.EOF), s),
    close := fun s => (if s < k then some cerr else none, s + 1), log := [] }

/-- A call on the writer that the sticky error governs: `Write(p)` or
`Flush()`. -/
inductive WOp where
  | write (p : List Byte)
  | flush
  deriving DecidableEq, Repr

/-- One call on the writer: the count it reports (0 for `Flush`), the error it
returns and the writer afterwards. -/
def Writer.call (fuel : Nat) (w : Writer) : WOp → Option ((Nat × Option Error) × Writer)
  | WOp.write p => w.Write fuel p
  | WOp.flush => some ((0, w.Flush.1), w.Flush.2)

/-- A sequence of calls on the writer: what each reported, and the writer at
the end. -/
def Writer.calls (fuel : Nat) : Writer → List WOp →
    Option (List (Nat × Option Error) × Writer)
  | w, [] => some ([], w)
  | w, op :: ops =>
    match w.call fuel op with
    | none => none
    | some (r, w1) =>
      match Writer.calls fuel w1 ops with
      | none => none
      | some (rs, w2) => some (r :: rs, w2)

/-- The reader `b` stands over the chunked source `rd`, whose chunks are not
empty, and `total` is what is still to be read: the unread bytes of the buffer
followed by the data left in the source.  A stored error is `io.EOF`, with no
data left. -/
def Bufio.Reader.Feeds (b : Reader) (rd : ReadCloser) (eager : Bool) (cerr : Option Error)
    (total : List Byte) : Prop :=
  ∃ log d plan, rd = chunkedFrom log d plan eager cerr ∧ b.WF ∧ (∀ c ∈ plan, 1 ≤ c) ∧
    (b.err = none ∨ (b.err = some Error.EOF ∧ d = [])) ∧ b.unread ++ d = total

/-! ### Concrete states -/

/-- A writer with two bytes pending over a stream whose writes accept one byte
and fail, and whose `Close` fails with another error. -/
def brokenWriter : Writer :=
  { wc := failing 1 (some (Error.other 7)) (some (Error.other 9)),
    w := { err := none, buf := [1, 2, 3, 4], n := 2 } }

/-- A writer with two bytes pending over a sink whose `Close` answers an
error. -/
def pendingWriter : Writer :=
  { wc := sink (some (Error.other 9)), w := { err := none, buf := [1, 2, 3, 4], n := 2 } }

/-- A writer with two bytes pending and a stored error, over a stream whose
first `Close` fails. -/
def flakyWriter : Writer :=
  { wc := flaky 1 (Error.other 3), w := { err := some (Error.other 5), buf := [1, 2, 3, 4], n := 2 } }

/-- A reader with two unread bytes, over a source whose first `Close` fails. -/
def flakyReader : Reader :=
  { rc := flakySource 1 (Error.other 4),
    r := { buf := [1, 2, 3, 4], r := 1, w := 3, err := none, lastByte := 1, lastRuneSize := -1 } }

/-- A writer with two bytes pending and a stored error, over a sink. -/
def staleWriter : Writer :=
  { wc := sink none, w := { err := some (Error.other 5), buf := [1, 2, 3, 4], n := 2 } }

/-- A reader with two unread bytes of an old source. -/
def staleReader : Reader :=
  { rc := chunked [8, 9] [] false none,
    r := { buf := [5, 6, 7, 0], r := 1, w := 3, err := none, lastByte := 5, lastRuneSize := -1 } }

/-! ## Lemmas on the writer -/

theorem WriteCloser.Close_log (wc : WriteCloser) :
    wc.Close.2.log = wc.log ++ [WCall.close wc.Close.1] := rfl

theorem WriteCloser.Close_closeCalls (wc : WriteCloser) :
    wc.Close.2.closeCalls = wc.closeCalls + 1 := by
  simp [WriteCloser.closeCalls, WriteCloser.Close, WCall.isClose]

theorem WriteCloser.Close_writeCalls (wc : WriteCloser) :
    wc.Close.2.writeCalls = wc.writeCalls := by
  simp [WriteCloser.writeCalls, WriteCloser.Close, WCall.isWrite]

theorem WriteCloser.Close_received (wc : WriteCloser) :
    wc.Close.2.received = wc.received := by
  simp [WriteCloser.received, WriteCloser.Close, WCall.accepted]

theorem WriteCloser.Write_closeCalls (wc : WriteCloser) (p : List Byte) :
    (wc.Write p).2.2.closeCalls = wc.closeCalls := by
  simp [WriteCloser.closeCalls, WriteCloser.Write, WCall.isClose]

/-- What `Write` answers on a stream that accepts everything. -/
theorem WriteCloser.Write_of_acceptsAll (wc : WriteCloser) (h : wc.AcceptsAll)
    (p : List Byte) :
    (wc.Write p).1 = p.length ∧ (wc.Write p).2.1 = none ∧
      (wc.Write p).2.2.log = wc.log ++ [WCall.write p p.length none] ∧
      (wc.Write p).2.2.received = wc.received ++ p ∧
      (wc.Write p).2.2.AcceptsAll := by
  have h1 := h wc.st p
  refine ⟨?_, ?_, ?_, ?_, ?_⟩
  · simp [WriteCloser.Write, h1]
  · simp [WriteCloser.Write, h1]
  · simp [WriteCloser.Write, h1]
  · simp [WriteCloser.Write, WriteCloser.received, h1, WCall.accepted]
  · intro s q
    exact h s q

theorem WriteCloser.Close_acceptsAll (wc : WriteCloser) (h : wc.AcceptsAll) :
    wc.Close.2.AcceptsAll := by
  intro s q
  exact h s q

/-- `Flush` makes at most one call on the stream, a `Write` of `buf[0:n]`. -/
theorem Bufio.Writer.Flush_log (b : Writer) (wr : WriteCloser) :
    (b.Flush wr).2.2 = wr ∨
      (b.Flush wr).2.2 = (wr.Write (b.buf.take b.n)).2.2 := by
  unfold Writer.Flush
  split
  · exact Or.inl rfl
  · split
    · exact Or.inl rfl
    · simp only
      split <;> exact Or.inr rfl

theorem Bufio.Writer.Flush_closeCalls (b : Writer) (wr : WriteCloser) :
    (b.Flush wr).2.2.closeCalls = wr.closeCalls := by
  rcases Writer.Flush_log b wr with h | h
  · rw [h]
  · rw [h, WriteCloser.Write_closeCalls]

/-- After a failed `Flush` the error is stored. -/
theorem Bufio.Writer.Flush_err (b : Writer) (wr : WriteCloser) :
    (b.Flush wr).2.1.err = (b.Flush wr).1 := by
  unfold Writer.Flush
  split
  · next e he => simpa using he
  · next he =>
    split
    · simpa using he
    · simp only
      split
      · rfl
      · simpa using he

/-- With a stored error, `Flush` returns it and touches nothing. -/
theorem Bufio.Writer.Flush_sticky (b : Writer) (wr : WriteCloser) (e : Error)
    (h : b.err = some e) : b.Flush wr = (some e, b, wr) := by
  unfold Writer.Flush
  simp [h]

/-- With an empty buffer and no stored error, `Flush` does nothing. -/
theorem Bufio.Writer.Flush_empty (b : Writer) (wr : WriteCloser)
    (h : b.err = none) (hn : b.n = 0) : b.Flush wr = (none, b, wr) := by
  unfold Writer.Flush
  simp [h, hn]

/-- On a stream that accepts everything, `Flush` hands over `buf[0:n]`. -/
theorem Bufio.Writer.Flush_of_acceptsAll (b : Writer) (wr : WriteCloser) (h : wr.AcceptsAll)
    (he : b.err = none) (hn : b.n ≤ b.buf.length) (hpos : b.n ≠ 0) :
    b.Flush wr = (none, { b with n := 0 }, (wr.Write (b.buf.take b.n)).2.2) := by
  obtain ⟨h1, h2, -⟩ := WriteCloser.Write_of_acceptsAll wr h (b.buf.take b.n)
  have hlen : (List.take b.n b.buf).length = b.n := by simp [hn]
  unfold Writer.Flush
  simp [he, hpos, h1, h2, hlen]

/-- The loop of `Write` is not entered when its condition fails. -/
theorem Bufio.Writer.writeLoop_exit (fuel : Nat) (b : Writer) (wr : WriteCloser)
    (p : List Byte) (nn : Nat) (h : ¬ (p.length > b.Available ∧ b.err = none)) :
    Writer.writeLoop fuel b wr p nn = some (b, wr, p, nn) := by
  cases fuel <;> simp only [Writer.writeLoop, if_neg h]

/-- With a stored error, `Write` accepts nothing, returns the error and touches
neither the buffer nor the stream. -/
theorem Bufio.Writer.Write_sticky (fuel : Nat) (b : Writer) (wr : WriteCloser) (p : List Byte)
    (e : Error) (h : b.err = some e) :
    b.Write fuel wr p = some ((0, some e), b, wr) := by
  have hx : ¬ (p.length > b.Available ∧ b.err = none) := by simp [h]
  simp [Writer.Write, Writer.writeLoop_exit fuel b wr p 0 hx, h]

/-- Buffered path: data that fits an empty buffer is copied and the stream is
not called. -/
theorem Bufio.Writer.Write_buffered (fuel : Nat) (b : Writer) (wr : WriteCloser) (p : List Byte)
    (he : b.err = none) (hn : b.n = 0) (hp : p.length ≤ b.buf.length) :
    b.Write fuel wr p =
      some ((p.length, none), { b with buf := p ++ b.buf.drop p.length, n := p.length }, wr) := by
  have hx : ¬ (p.length > b.Available ∧ b.err = none) := by
    simp [Writer.Available, hn, hp]
  simp [Writer.Write, Writer.writeLoop_exit fuel b wr p 0 hx, he, copyAt, hn, hp]

/-- Direct path: data larger than an empty buffer goes to the stream in one
call and the buffer stays empty. -/
theorem Bufio.Writer.Write_direct (fuel : Nat) (b : Writer) (wr : WriteCloser) (p : List Byte)
    (hacc : wr.AcceptsAll) (he : b.err = none) (hn : b.n = 0)
    (hp : b.buf.length < p.length) :
    b.Write (fuel + 1) wr p = some ((p.length, none), b, (wr.Write p).2.2) := by
  obtain ⟨h1, h2, -⟩ := WriteCloser.Write_of_acceptsAll wr hacc p
  obtain ⟨err, buf, n⟩ := b
  simp only at he hn hp
  subst he hn
  have hc : p.length > (Writer.mk none buf 0).Available ∧ (Writer.mk none buf 0).err = none := by
    simp [Writer.Available, hp]
  have hx : ¬ (([] : List Byte).length > (Writer.mk none buf 0).Available ∧
      (Writer.mk none buf 0).err = none) := by simp
  simp only [Writer.Write, Writer.writeLoop, if_pos hc, Writer.Buffered, if_true, h1, h2,
    List.drop_length, Writer.writeLoop_exit fuel _ _ [] _ hx, copyAt]
  simp [Writer.Available, hp]

/-- `Write` then `Flush` on an empty, healthy writer over a stream that accepts
everything: all of `p` is accepted and reaches the stream, and the buffer is
empty again. -/
theorem Bufio.Writer.Write_Flush (fuel : Nat) (b : Writer) (wr : WriteCloser) (p : List Byte)
    (hacc : wr.AcceptsAll) (he : b.err = none) (hn : b.n = 0) :
    ∃ b1 wr1, b.Write (fuel + 1) wr p = some ((p.length, none), b1, wr1) ∧
      (b1.Flush wr1).1 = none ∧
      (b1.Flush wr1).2.2.received = wr.received ++ p ∧
      (b1.Flush wr1).2.2.closeCalls = wr.closeCalls ∧
      (b1.Flush wr1).2.1.n = 0 ∧ (b1.Flush wr1).2.1.err = none ∧
      (b1.Flush wr1).2.1.buf.length = b.buf.length := by
  by_cases hp : p.length ≤ b.buf.length
  · refine ⟨_, _, Writer.Write_buffered (fuel + 1) b wr p he hn hp, ?_⟩
    by_cases hz : p.length = 0
    · have hp0 : p = [] := List.length_eq_zero.mp hz
      subst hp0
      rw [Writer.Flush_empty _ _ (by simpa using he) (by simp)]
      simp [he]
    · rw [Writer.Flush_of_acceptsAll _ _ hacc (by simpa using he) (by simp)
        (by simpa using hz)]
      obtain ⟨-, -, -, h4, -⟩ := WriteCloser.Write_of_acceptsAll wr hacc p
      simp [h4, WriteCloser.Write_closeCalls, he]
      omega
  · have hp1 : b.buf.length < p.length := by omega
    refine ⟨_, _, Writer.Write_direct fuel b wr p hacc he hn hp1, ?_⟩
    obtain ⟨-, -, -, h4, -⟩ := WriteCloser.Write_of_acceptsAll wr hacc p
    rw [Writer.Flush_empty _ _ he hn]
    simp [h4, hn, he, WriteCloser.Write_closeCalls]

/-! ## Lemmas on the reader -/

theorem ReadCloser.Read_length_le (rc : ReadCloser) (len : Nat) :
    (rc.Read len).1.length ≤ len := by
  simp [ReadCloser.Read, List.length_take]

theorem ReadCloser.Close_appends (rc : ReadCloser) :
    rc.Close.2.log = rc.log ++ [RCall.close rc.Close.1] := rfl

theorem ReadCloser.Close_counts (rc : ReadCloser) :
    rc.Close.2.closeCalls = rc.closeCalls + 1 := by
  simp [ReadCloser.closeCalls, ReadCloser.Close, RCall.isClose]

/-- A read on a chunked source with data left delivers a prefix of it. -/
theorem chunkedFrom_Read (log : List RCall) (d : List Byte) (plan : List Nat) (eager : Bool)
    (cerr : Option Error) (len : Nat) (hd : d ≠ []) :
    (chunkedFrom log d plan eager cerr).Read len =
      (d.take (min (plan.headD len) len),
        if eager = true ∧ d.drop (min (plan.headD len) len) = [] then some Error.EOF else none,
        chunkedFrom (log ++ [RCall.read len (d.take (min (plan.headD len) len))
          (if eager = true ∧ d.drop (min (plan.headD len) len) = [] then some Error.EOF
            else none)])
          (d.drop (min (plan.headD len) len)) plan.tail eager cerr) := by
  have ht : List.take len (List.take (min (plan.headD len) len) d) =
      List.take (min (plan.headD len) len) d := by
    rw [List.take_take]
    congr 1
    omega
  simp only [ReadCloser.Read, chunkedFrom, chunkedRead, if_neg hd, ht]

/-- A read on a chunked source with nothing left answers `0, io.EOF`. -/
theorem chunkedFrom_Read_nil (log : List RCall) (plan : List Nat) (eager : Bool)
    (cerr : Option Error) (len : Nat) :
    (chunkedFrom log [] plan eager cerr).Read len =
      ([], some Error.EOF,
        chunkedFrom (log ++ [RCall.read len [] (some Error.EOF)]) [] plan eager cerr) := by
  simp [ReadCloser.Read, chunkedFrom, chunkedRead]

theorem Bufio.Reader.unread_length (b : Reader) (h : b.WF) : b.unread.length = b.w - b.r := by
  obtain ⟨_, h2, _⟩ := h
  simp [Reader.unread, List.length_drop, List.length_take, h2]

/-- Sliding keeps the unread bytes and moves them to the start of the buffer. -/
theorem Bufio.Reader.slide_spec (b : Reader) (h : b.WF) :
    b.slide.r = 0 ∧ b.slide.w = b.w - b.r ∧ b.slide.buf.length = b.buf.length ∧
      b.slide.buf.take (b.w - b.r) = b.unread ∧ b.slide.err = b.err := by
  have hl := Reader.unread_length b h
  obtain ⟨h1, h2, h3⟩ := h
  unfold Reader.slide
  split
  · refine ⟨rfl, rfl, ?_, ?_, rfl⟩
    · simp [copyAt, hl]
    · have hm : min b.unread.length b.buf.length = b.unread.length := by omega
      simp only [copyAt, Nat.sub_zero, hm, List.take_zero, List.nil_append, List.take_length,
        Nat.zero_add]
      rw [← hl, List.take_left']
      rfl
  · next hr =>
    have hr0 : b.r = 0 := by omega
    refine ⟨hr0, by omega, rfl, ?_, rfl⟩
    simp [Reader.unread, hr0]

/-- What one run of the read loop of `fill` does to the reader, whatever the
stream: the buffered prefix grows by the bytes `got`, and the loop ends with a
byte read or an error stored. -/
theorem Bufio.Reader.fillLoop_spec (i : Nat) (b : Reader) (rd : ReadCloser)
    (hw : b.w ≤ b.buf.length) :
    ∃ got, (Reader.fillLoop i b rd).1.buf.take (Reader.fillLoop i b rd).1.w =
        b.buf.take b.w ++ got ∧
      (Reader.fillLoop i b rd).1.w = b.w + got.length ∧
      (Reader.fillLoop i b rd).1.w ≤ b.buf.length ∧
      (Reader.fillLoop i b rd).1.buf.length = b.buf.length ∧
      (Reader.fillLoop i b rd).1.r = b.r ∧
      (got ≠ [] ∨ (Reader.fillLoop i b rd).1.err ≠ none) := by
  induction i generalizing b rd with
  | zero =>
    refine ⟨[], ?_⟩
    simp [Reader.fillLoop, hw]
  | succ i ih =>
    have hx := ReadCloser.Read_length_le rd (b.buf.length - b.w)
    unfold Reader.fillLoop
    generalize rd.Read (b.buf.length - b.w) = x at hx
    obtain ⟨got0, e0, rd0⟩ := x
    simp only at hx ⊢
    have hlen : (List.take b.w b.buf ++ got0 ++ List.drop (b.w + got0.length) b.buf).length =
        b.buf.length := by
      simp [List.length_append, List.length_take, List.length_drop]
      omega
    have htake : List.take (b.w + got0.length)
        (List.take b.w b.buf ++ got0 ++ List.drop (b.w + got0.length) b.buf) =
        List.take b.w b.buf ++ got0 := by
      apply List.take_left'
      simp [List.length_append, List.length_take, hw]
    cases e0 with
    | some e =>
      refine ⟨got0, htake, rfl, ?_, hlen, rfl, Or.inr (by simp)⟩
      simp only
      omega
    | none =>
      simp only
      split
      · next hpos =>
        refine ⟨got0, htake, rfl, ?_, hlen, rfl, Or.inl ?_⟩
        · simp only
          omega
        · exact List.ne_nil_of_length_pos hpos
      · next hzero =>
        have hnil : got0 = [] := by
          apply List.eq_nil_of_length_eq_zero
          omega
        obtain ⟨got, g1, g2, g3, g4, g5, g6⟩ := ih
          ⟨List.take b.w b.buf ++ got0 ++ List.drop (b.w + got0.length) b.buf, b.r,
            b.w + got0.length, b.err, b.lastByte, b.lastRuneSize⟩
          rd0 (by simp only; rw [hlen]; omega)
        refine ⟨got, ?_, ?_, ?_, ?_, ?_, g6⟩
        · rw [g1]; simp only; rw [htake, hnil]; simp
        · rw [g2]; simp [hnil]
        · rw [hlen] at g3; exact g3
        · rw [g4, hlen]
        · rw [g5]

/-- What `fill` does to a reader with room in its buffer, whatever the stream:
it returns, the unread bytes grow by `got`, and either a byte was read or an
error is stored. -/
theorem Bufio.Reader.fill_spec (b : Reader) (rd : ReadCloser) (h : b.WF)
    (hroom : b.w - b.r < b.buf.length) :
    ∃ b1 rd1 got, b.fill rd = some (b1, rd1) ∧ b1.unread = b.unread ++ got ∧ b1.WF ∧
      b1.buf.length = b.buf.length ∧ (got ≠ [] ∨ b1.err ≠ none) := by
  obtain ⟨s1, s2, s3, s4, -⟩ := Reader.slide_spec b h
  have hw : b.slide.w ≤ b.slide.buf.length := by omega
  obtain ⟨got, g1, g2, g3, g4, g5, g6⟩ := Reader.fillLoop_spec maxConsecutiveEmptyReads b.slide rd hw
  refine ⟨(Reader.fillLoop maxConsecutiveEmptyReads b.slide rd).1,
    (Reader.fillLoop maxConsecutiveEmptyReads b.slide rd).2, got, ?_, ?_, ?_, ?_, g6⟩
  · unfold Reader.fill
    simp only
    rw [if_neg (by omega)]
  · simp only [Reader.unread, g5, s1, List.drop_zero] at *
    rw [g1, s2, s4]
  · refine ⟨?_, ?_, ?_⟩
    · rw [g5, s1]; exact Nat.zero_le _
    · rw [g4]; exact g3
    · rw [g4, s3]; exact h.2.2
  · rw [g4, s3]

/-- One pass of the read loop of `fill` that reads a byte or meets an error
ends the loop. -/
theorem Bufio.Reader.fillLoop_succ_of_progress (i : Nat) (b : Reader) (rd rd1 : ReadCloser)
    (got : List Byte) (e : Option Error)
    (hread : rd.Read (b.buf.length - b.w) = (got, e, rd1)) (hprog : e ≠ none ∨ got ≠ []) :
    Reader.fillLoop (i + 1) b rd =
      (⟨b.buf.take b.w ++ got ++ b.buf.drop (b.w + got.length), b.r, b.w + got.length,
        if e = none then b.err else e, b.lastByte, b.lastRuneSize⟩, rd1) := by
  unfold Reader.fillLoop
  rw [hread]
  cases e with
  | some e => simp
  | none =>
    have hg : got ≠ [] := by
      rcases hprog with h | h
      · exact absurd rfl h
      · exact h
    have hpos : got.length > 0 := List.length_pos.mpr hg
    simp [hpos]

/-- What `fill` does over a chunked source: it takes a prefix `got` of the data
left, not empty unless no data is left; an error is stored only with the last
byte or at end of data, and it is `io.EOF`. -/
theorem Bufio.Reader.fill_chunked (b : Reader) (h : b.WF) (hroom : b.w - b.r < b.buf.length)
    (he : b.err = none) (log : List RCall) (d : List Byte) (plan : List Nat) (eager : Bool)
    (cerr : Option Error) (hplan : ∀ c ∈ plan, 1 ≤ c) :
    ∃ b1 got rest plan1 log1,
      b.fill (chunkedFrom log d plan eager cerr) =
        some (b1, chunkedFrom log1 rest plan1 eager cerr) ∧
      got ++ rest = d ∧ (d ≠ [] → got ≠ []) ∧ b1.unread = b.unread ++ got ∧ b1.WF ∧
      b1.buf.length = b.buf.length ∧ (∀ c ∈ plan1, 1 ≤ c) ∧
      (b1.err = none ∨ (b1.err = some Error.EOF ∧ rest = [])) ∧
      (d = [] → b1.err = some Error.EOF) ∧
      (eager = false → d ≠ [] → b1.err = none) := by
  obtain ⟨s1, s2, s3, s4, s5⟩ := Reader.slide_spec b h
  have hfill : b.fill (chunkedFrom log d plan eager cerr) =
      some (Reader.fillLoop (99 + 1) b.slide (chunkedFrom log d plan eager cerr)) := by
    unfold Reader.fill
    simp only
    rw [if_neg (by omega)]
    rfl
  have hWF : ∀ (got : List Byte) (e : Option Error), got.length ≤ b.slide.buf.length - b.slide.w →
      (Reader.mk (b.slide.buf.take b.slide.w ++ got ++ b.slide.buf.drop (b.slide.w + got.length))
        b.slide.r (b.slide.w + got.length) e b.slide.lastByte b.slide.lastRuneSize).unread =
          b.unread ++ got ∧
      (Reader.mk (b.slide.buf.take b.slide.w ++ got ++ b.slide.buf.drop (b.slide.w + got.length))
        b.slide.r (b.slide.w + got.length) e b.slide.lastByte b.slide.lastRuneSize).WF ∧
      (b.slide.buf.take b.slide.w ++ got ++
        b.slide.buf.drop (b.slide.w + got.length)).length = b.buf.length := by
    intro got e hgot
    have hl : (b.slide.buf.take b.slide.w ++ got ++
        b.slide.buf.drop (b.slide.w + got.length)).length = b.buf.length := by
      simp [List.length_append, List.length_take, List.length_drop]
      omega
    refine ⟨?_, ⟨?_, ?_, ?_⟩, hl⟩
    · simp only [Reader.unread, s1, List.drop_zero]
      rw [List.take_left' (by simp [List.length_take]; omega), s2, s4]
      rfl
    · simp only [s1]; exact Nat.zero_le _
    · simp only [hl]; omega
    · simp only [hl]; exact h.2.2
  by_cases hd : d = []
  · subst hd
    have hread := chunkedFrom_Read_nil log plan eager cerr (b.slide.buf.length - b.slide.w)
    have hstep := Reader.fillLoop_succ_of_progress 99 b.slide _ _ _ _ hread (Or.inl (by simp))
    obtain ⟨w1, w2, w3⟩ := hWF [] (some Error.EOF) (by simp)
    refine ⟨_, [], [], plan, _, hfill.trans (congrArg some hstep), rfl, ?_, ?_, ?_, ?_, hplan,
      ?_, ?_, ?_⟩
    · intro hne; exact absurd rfl hne
    · simpa using w1
    · simpa using w2
    · simpa using w3
    · right; simp
    · intro _; simp
    · intro _ hne; exact absurd rfl hne
  · have hread := chunkedFrom_Read log d plan eager cerr (b.slide.buf.length - b.slide.w) hd
    generalize hk : min (plan.headD (b.slide.buf.length - b.slide.w))
      (b.slide.buf.length - b.slide.w) = k at hread
    have hk1 : 1 ≤ k := by
      have hroom1 : 1 ≤ b.slide.buf.length - b.slide.w := by omega
      cases plan with
      | nil => simp at hk; omega
      | cons c cs =>
        have := hplan c (by simp)
        simp at hk
        omega
    have hk2 : k ≤ b.slide.buf.length - b.slide.w := by omega
    have hgot : d.take k ≠ [] := by
      cases d with
      | nil => exact absurd rfl hd
      | cons x xs =>
        obtain ⟨k', rfl⟩ : ∃ k', k = k' + 1 := ⟨k - 1, by omega⟩
        simp
    have hstep := Reader.fillLoop_succ_of_progress 99 b.slide _ _ _ _ hread (Or.inr hgot)
    have hgl : (d.take k).length ≤ b.slide.buf.length - b.slide.w := by
      simp [List.length_take]; omega
    obtain ⟨w1, w2, w3⟩ := hWF (d.take k)
      (if (if eager = true ∧ d.drop k = [] then some Error.EOF else none) = none
        then b.slide.err else (if eager = true ∧ d.drop k = [] then some Error.EOF else none))
      hgl
    refine ⟨_, d.take k, d.drop k, plan.tail, _, hfill.trans (congrArg some hstep),
      List.take_append_drop k d, fun _ => hgot, w1, w2, w3, ?_, ?_, ?_, ?_⟩
    · intro c hc
      exact hplan c (List.mem_of_mem_tail hc)
    · by_cases hc : eager = true ∧ d.drop k = []
      · right
        simp only [if_pos hc]
        exact ⟨by simp, hc.2⟩
      · left
        simp only [if_neg hc, if_true]
        rw [s5, he]
    · intro hd'; exact absurd hd' hd
    · intro hea _
      have hc : ¬ (eager = true ∧ d.drop k = []) := by simp [hea]
      simp only [if_neg hc, if_true]
      rw [s5, he]

/-- With an unread byte in the buffer, the loop of `ReadByte` returns it
without a call on the stream. -/
theorem Bufio.Reader.readByteLoop_unread (fuel : Nat) (b : Reader) (rd : ReadCloser) (c : Byte)
    (u : List Byte) (h : b.WF) (hu : b.unread = c :: u) :
    ∃ b1, Reader.readByteLoop fuel b rd = some ((c, none), b1, rd) ∧
      b1.unread = u ∧ b1.WF ∧ b1.err = b.err ∧ b1.buf.length = b.buf.length := by
  have hl := Reader.unread_length b h
  obtain ⟨h1, h2, h3⟩ := h
  have hlt : b.r < b.w := by
    rw [hu] at hl
    simp at hl
    omega
  have hlt2 : b.r < (b.buf.take b.w).length := by
    simp [List.length_take]; omega
  have hd := List.drop_eq_getElem_cons hlt2
  rw [Reader.unread] at hu
  rw [hd] at hu
  simp only [List.cons.injEq] at hu
  obtain ⟨hc, hu'⟩ := hu
  have hget : b.buf[b.r]? = some c := by
    rw [← hc, List.getElem_take]
    exact List.getElem?_eq_getElem _
  refine ⟨⟨b.buf, b.r + 1, b.w, b.err, c.toNat, b.lastRuneSize⟩, ?_, ?_, ?_, rfl, rfl⟩
  · have hp : b.readBytePass rd =
        Pass.ret ((c, none), ⟨b.buf, b.r + 1, b.w, b.err, c.toNat, b.lastRuneSize⟩, rd) := by
      unfold Reader.readBytePass
      rw [if_neg (by omega)]
      simp [hget]
    cases fuel <;> simp only [Reader.readByteLoop, hp]
  · simpa [Reader.unread] using hu'
  · exact ⟨by simp only; omega, h2, h3⟩

/-- The loop of `ReadByte` when a byte is still to be read: it returns that
byte. -/
theorem Bufio.Reader.readByteLoop_feeds_cons (b : Reader) (rd : ReadCloser) (eager : Bool)
    (cerr : Option Error) (c : Byte) (rest : List Byte) (h : b.Feeds rd eager cerr (c :: rest))
    (fuel : Nat) :
    ∃ b1 rd1, Reader.readByteLoop (fuel + 1) b rd = some ((c, none), b1, rd1) ∧
      b1.Feeds rd1 eager cerr rest ∧ b1.buf.length = b.buf.length := by
  obtain ⟨log, d, plan, hrc, hWF, hplan, herr, htot⟩ := h
  cases hu : b.unread with
  | cons c1 u =>
    rw [hu] at htot
    simp only [List.cons_append, List.cons.injEq] at htot
    obtain ⟨hc, hrest⟩ := htot
    subst hc
    obtain ⟨b1, e1, e2, e3, e4, e5⟩ := Reader.readByteLoop_unread (fuel + 1) b rd c1 u hWF hu
    refine ⟨b1, rd, e1, ⟨log, d, plan, hrc, e3, hplan, ?_, ?_⟩, e5⟩
    · rw [e4]; exact herr
    · rw [e2, hrest]
  | nil =>
    rw [hu] at htot
    simp only [List.nil_append] at htot
    have hen : b.err = none := by
      rcases herr with h1 | ⟨-, h2⟩
      · exact h1
      · rw [h2] at htot; exact absurd htot (by simp)
    have hl := Reader.unread_length b hWF
    rw [hu] at hl
    simp only [List.length_nil] at hl
    have hrw : b.r = b.w := by
      have := hWF.1
      omega
    obtain ⟨b1, got, rest1, plan1, log1, f1, f2, f3, f4, f5, f6, f7, f8, -, -⟩ :=
      Reader.fill_chunked b hWF (by have := hWF.2.2; omega) hen log d plan eager cerr hplan
    have hgot : got ≠ [] := f3 (by rw [htot]; simp)
    obtain ⟨g, gs, rfl⟩ : ∃ g gs, got = g :: gs := by
      cases got with
      | nil => exact absurd rfl hgot
      | cons g gs => exact ⟨g, gs, rfl⟩
    rw [← f2] at htot
    simp only [List.cons_append, List.cons.injEq] at htot
    obtain ⟨hg, hrest⟩ := htot
    subst hg
    have hu1 : b1.unread = g :: gs := by
      rw [f4, hu]
      rfl
    obtain ⟨b2, e1, e2, e3, e4, e5⟩ := Reader.readByteLoop_unread fuel b1
      (chunkedFrom log1 rest1 plan1 eager cerr) g gs f5 hu1
    refine ⟨b2, _, ?_, ⟨log1, rest1, plan1, rfl, e3, f7, ?_, ?_⟩, ?_⟩
    · have hp : b.readBytePass rd = Pass.again (b1, chunkedFrom log1 rest1 plan1 eager cerr) := by
        unfold Reader.readBytePass
        simp only [hrw, if_true, hen, hrc, f1]
      simp only [Reader.readByteLoop, hp, e1]
    · rw [e4]; exact f8
    · rw [e2, hrest]
    · rw [e5, f6]

/-- The loop of `ReadByte` when nothing is left to read: it returns `io.EOF`. -/
theorem Bufio.Reader.readByteLoop_feeds_nil (b : Reader) (rd : ReadCloser) (eager : Bool)
    (cerr : Option Error) (h : b.Feeds rd eager cerr []) (fuel : Nat) :
    ∃ b1 rd1, Reader.readByteLoop (fuel + 1) b rd = some ((0, some Error.EOF), b1, rd1) ∧
      b1.Feeds rd1 eager cerr [] ∧ b1.buf.length = b.buf.length := by
  obtain ⟨log, d, plan, hrc, hWF, hplan, herr, htot⟩ := h
  obtain ⟨hu, hd⟩ := List.append_eq_nil.mp htot
  subst hd
  have hl := Reader.unread_length b hWF
  rw [hu] at hl
  simp only [List.length_nil] at hl
  have hrw : b.r = b.w := by
    have := hWF.1
    omega
  cases hen : b.err with
  | some e =>
    have he : e = Error.EOF := by
      rcases herr with h1 | ⟨h1, -⟩
      · rw [hen] at h1; exact absurd h1 (by simp)
      · rw [hen] at h1; exact Option.some.inj h1
    subst he
    refine ⟨⟨b.buf, b.r, b.w, none, b.lastByte, b.lastRuneSize⟩, rd, ?_,
      ⟨log, [], plan, hrc, hWF, hplan, Or.inl rfl, ?_⟩, rfl⟩
    · have hp : b.readBytePass rd = Pass.ret ((0, some Error.EOF),
          ⟨b.buf, b.r, b.w, none, b.lastByte, b.lastRuneSize⟩, rd) := by
        unfold Reader.readBytePass
        simp only [hrw, if_true, hen]
      simp only [Reader.readByteLoop, hp]
    · simpa [Reader.unread] using hu
  | none =>
    obtain ⟨b1, got, rest1, plan1, log1, f1, f2, f3, f4, f5, f6, f7, f8, f9, -⟩ :=
      Reader.fill_chunked b hWF (by have := hWF.2.2; omega) hen log [] plan eager cerr hplan
    obtain ⟨hg, hr1⟩ := List.append_eq_nil.mp f2
    subst hg hr1
    have hu1 : b1.unread = [] := by
      rw [f4, hu]
      rfl
    have hl1 := Reader.unread_length b1 f5
    rw [hu1] at hl1
    simp only [List.length_nil] at hl1
    have hrw1 : b1.r = b1.w := by
      have := f5.1
      omega
    have he1 := f9 rfl
    refine ⟨⟨b1.buf, b1.r, b1.w, none, b1.lastByte, b1.lastRuneSize⟩, _, ?_,
      ⟨log1, [], plan1, rfl, f5, f7, Or.inl rfl, ?_⟩, ?_⟩
    · have hp : b.readBytePass rd = Pass.again (b1, chunkedFrom log1 [] plan1 eager cerr) := by
        unfold Reader.readBytePass
        simp only [hrw, if_true, hen, hrc, f1]
      have hp1 : b1.readBytePass (chunkedFrom log1 [] plan1 eager cerr) =
          Pass.ret ((0, some Error.EOF),
            ⟨b1.buf, b1.r, b1.w, none, b1.lastByte, b1.lastRuneSize⟩,
            chunkedFrom log1 [] plan1 eager cerr) := by
        unfold Reader.readBytePass
        simp only [hrw1, if_true, he1]
      cases fuel <;> simp only [Reader.readByteLoop, hp, hp1]
    · simpa [Reader.unread] using hu1
    · simp only [f6]

/-- The reader stands over a chunked source and `total` is still to be read. -/
theorem Reader.feeds_new (data : List Byte) (plan : List Nat) (eager : Bool)
    (cerr : Option Error) (b : Bufio.Reader) (hplan : ∀ c ∈ plan, 1 ≤ c)
    (hr : b.r = 0) (hw : b.w = 0) (he : b.err = none) (hpos : 0 < b.buf.length) :
    b.Feeds (chunked data plan eager cerr) eager cerr data := by
  refine ⟨[], data, plan, rfl, ⟨by omega, by omega, hpos⟩, hplan, Or.inl he, ?_⟩
  simp [Bufio.Reader.unread, hr, hw]

/-- `ReadByte` when a byte is still to be read: it returns that byte. -/
theorem Reader.ReadByte_feeds_cons (r : Reader) (eager : Bool) (cerr : Option Error)
    (c : Byte) (rest : List Byte) (h : r.r.Feeds r.rc eager cerr (c :: rest)) (fuel : Nat) :
    ∃ r1, r.ReadByte (fuel + 1) = some ((c, none), r1) ∧ r1.r.Feeds r1.rc eager cerr rest ∧
      r1.Size = r.Size := by
  obtain ⟨b1, rd1, h1, h2, h3⟩ := Bufio.Reader.readByteLoop_feeds_cons
    { r.r with lastRuneSize := -1 } r.rc eager cerr c rest h fuel
  refine ⟨⟨b1, rd1⟩, ?_, h2, h3⟩
  simp only [Reader.ReadByte, Bufio.Reader.ReadByte, h1]

/-- `ReadByte` when nothing is left to read: it returns `io.EOF`. -/
theorem Reader.ReadByte_feeds_nil (r : Reader) (eager : Bool) (cerr : Option Error)
    (h : r.r.Feeds r.rc eager cerr []) (fuel : Nat) :
    ∃ r1, r.ReadByte (fuel + 1) = some ((0, some Error.EOF), r1) ∧
      r1.r.Feeds r1.rc eager cerr [] ∧ r1.Size = r.Size := by
  obtain ⟨b1, rd1, h1, h2, h3⟩ := Bufio.Reader.readByteLoop_feeds_nil
    { r.r with lastRuneSize := -1 } r.rc eager cerr h fuel
  refine ⟨⟨b1, rd1⟩, ?_, h2, h3⟩
  simp only [Reader.ReadByte, Bufio.Reader.ReadByte, h1]

/-- Reading byte by byte until an error returns all that was still to be read,
and ends with `io.EOF`. -/
theorem Reader.readAllBytes_feeds (eager : Bool) (cerr : Option Error) (fuel : Nat)
    (total : List Byte) :
    ∀ (r : Reader) (calls : Nat), r.r.Feeds r.rc eager cerr total → total.length < calls →
      ∃ r1, r.readAllBytes (fuel + 1) calls = some (total, Error.EOF, r1) ∧
        r1.Size = r.Size := by
  induction total with
  | nil =>
    intro r calls h hc
    obtain ⟨calls', rfl⟩ : ∃ k, calls = k + 1 := ⟨calls - 1, by omega⟩
    obtain ⟨r1, h1, -, h3⟩ := Reader.ReadByte_feeds_nil r eager cerr h fuel
    exact ⟨r1, by simp [Reader.readAllBytes, h1], h3⟩
  | cons c rest ih =>
    intro r calls h hc
    obtain ⟨calls', rfl⟩ : ∃ k, calls = k + 1 := ⟨calls - 1, by omega⟩
    obtain ⟨r1, h1, h2, h3⟩ := Reader.ReadByte_feeds_cons r eager cerr c rest h fuel
    obtain ⟨r2, h4, h5⟩ := ih r1 calls' h2 (by simp at hc; omega)
    exact ⟨r2, by simp [Reader.readAllBytes, h1, h4], h5.trans h3⟩

theorem Bufio.indexByte_eq_none (l : List Byte) (c : Byte) : indexByte l c = none ↔ c ∉ l := by
  induction l with
  | nil => simp [indexByte]
  | cons x xs ih =>
    by_cases hx : x = c
    · simp [indexByte, hx]
    · have hx' : ¬ c = x := fun h => hx h.symm
      simp [indexByte, hx, hx', ih]

theorem Bufio.indexByte_eq_some (l : List Byte) (c : Byte) (i : Nat) (h : indexByte l c = some i) :
    l[i]? = some c := by
  induction l generalizing i with
  | nil => simp [indexByte] at h
  | cons x xs ih =>
    by_cases hx : x = c
    · simp [indexByte, hx] at h
      subst h
      simp [hx]
    · simp only [indexByte, if_neg hx, Option.map_eq_some'] at h
      obtain ⟨j, hj, rfl⟩ := h
      simpa using ih j hj

/-- The part of the buffer searched by a pass of `ReadSlice` is the unread
bytes after the first `s`. -/
theorem Bufio.Reader.drop_unread (b : Reader) (s : Nat) :
    (b.buf.take b.w).drop (b.r + s) = b.unread.drop s := by
  simp [Reader.unread, List.drop_drop, Nat.add_comm]

/-- What one pass of `ReadSlice` does, whatever the stream, when the first `s`
unread bytes hold no delimiter: it breaks with a line that ends in the
delimiter and no error, or with an error and a line without the delimiter, or
it fills the buffer and goes round again. -/
theorem Bufio.Reader.readSlicePass_spec (delim : Byte) (b : Reader) (rd : ReadCloser) (s : Nat)
    (h : b.WF) (hns : delim ∉ b.unread.take s) :
    (∃ x, b.readSlicePass delim rd s = Pass.ret x ∧
      ((x.1.2 = none ∧ x.1.1.getLast? = some delim) ∨ (x.1.2 ≠ none ∧ delim ∉ x.1.1))) ∨
    (∃ b1 rd1 s1, b.readSlicePass delim rd s = Pass.again (b1, rd1, s1) ∧ b1.WF ∧
      delim ∉ b1.unread.take s1 ∧ b1.buf.length = b.buf.length ∧
      b.err = none ∧ b.w - b.r < b.buf.length ∧
      (b1.err ≠ none ∨ b.w - b.r < b1.w - b1.r)) := by
  have hl := Reader.unread_length b h
  have hdrop := Reader.drop_unread b s
  unfold Reader.readSlicePass
  cases hi : indexByte ((b.buf.take b.w).drop (b.r + s)) delim with
  | some i =>
    left
    refine ⟨_, rfl, Or.inl ⟨rfl, ?_⟩⟩
    have hget := indexByte_eq_some _ _ _ hi
    obtain ⟨h1, h2, h3⟩ := h
    have hlt : b.r + s + i < b.w := by
      have := (List.getElem?_eq_some_iff.mp hget).1
      simp [List.length_drop, List.length_take] at this
      omega
    simp only
    rw [List.getLast?_eq_getElem?]
    simp only [List.getElem?_drop, List.length_drop, List.length_take] at hget ⊢
    rw [List.getElem?_take_of_lt (by omega)] at hget
    rw [List.getElem?_take_of_lt (by omega), ← hget]
    congr 1
    omega
  | none =>
    have hnd : delim ∉ b.unread := by
      rw [hdrop, indexByte_eq_none] at hi
      intro hmem
      rw [← List.take_append_drop s b.unread, List.mem_append] at hmem
      rcases hmem with hm | hm
      · exact hns hm
      · exact hi hm
    simp only
    cases he : b.err with
    | some e =>
      left
      exact ⟨_, rfl, Or.inr ⟨by simp, hnd⟩⟩
    | none =>
      simp only
      by_cases hfull : b.Buffered ≥ b.buf.length
      · left
        rw [if_pos hfull]
        refine ⟨_, rfl, Or.inr ⟨by simp, ?_⟩⟩
        obtain ⟨h1, h2, h3⟩ := h
        have hr0 : b.r = 0 := by
          simp only [Reader.Buffered] at hfull; omega
        have hwl : b.w = b.buf.length := by
          simp only [Reader.Buffered] at hfull; omega
        have hub : b.unread = b.buf := by
          simp [Reader.unread, hr0, hwl]
        simp only
        rw [← hub]
        exact hnd
      · right
        rw [if_neg hfull]
        have hroom : b.w - b.r < b.buf.length := by
          simp only [Reader.Buffered] at hfull; omega
        obtain ⟨b1, rd1, got, f1, f2, f3, f4, f5⟩ := Reader.fill_spec b rd h hroom
        have hl1 := Reader.unread_length b1 f3
        rw [f2, List.length_append, hl] at hl1
        refine ⟨b1, rd1, b.w - b.r, ?_, f3, ?_, f4, trivial, hroom, ?_⟩
        · simp only [f1]
        · rw [f2, ← hl, List.take_left]
          exact hnd
        · rcases f5 with hg | hg
          · right
            have := List.length_pos.mpr hg
            omega
          · left; exact hg

/-- The loop of `ReadSlice` returns an error exactly when the line it returns
does not end in the delimiter. -/
theorem Bufio.Reader.readSliceLoop_sound (delim : Byte) (fuel : Nat) :
    ∀ (b : Reader) (rd : ReadCloser) (s : Nat)
      (x : (List Byte × Option Error) × Reader × ReadCloser),
      b.WF → delim ∉ b.unread.take s →
      Reader.readSliceLoop delim fuel b rd s = some x →
      ((x.1.2 = none ∧ x.1.1.getLast? = some delim) ∨ (x.1.2 ≠ none ∧ delim ∉ x.1.1)) := by
  induction fuel with
  | zero =>
    intro b rd s x h hns hx
    rcases Reader.readSlicePass_spec delim b rd s h hns with
      ⟨y, hy, hres⟩ | ⟨b1, rd1, s1, hy, -⟩
    · simp only [Reader.readSliceLoop, hy, Option.some.injEq] at hx
      subst hx
      exact hres
    · simp [Reader.readSliceLoop, hy] at hx
  | succ fuel ih =>
    intro b rd s x h hns hx
    rcases Reader.readSlicePass_spec delim b rd s h hns with
      ⟨y, hy, hres⟩ | ⟨b1, rd1, s1, hy, hWF1, hns1, -⟩
    · simp only [Reader.readSliceLoop, hy, Option.some.injEq] at hx
      subst hx
      exact hres
    · simp only [Reader.readSliceLoop, hy] at hx
      exact ih b1 rd1 s1 x hWF1 hns1 hx

/-- The loop of `ReadSlice` returns within as many passes as the buffer has
free bytes, and at once when an error is stored. -/
theorem Bufio.Reader.readSliceLoop_total (delim : Byte) (fuel : Nat) :
    ∀ (b : Reader) (rd : ReadCloser) (s : Nat),
      b.WF → delim ∉ b.unread.take s →
      (b.err ≠ none ∨ b.buf.length - (b.w - b.r) ≤ fuel) →
      ∃ x, Reader.readSliceLoop delim fuel b rd s = some x := by
  induction fuel with
  | zero =>
    intro b rd s h hns hm
    rcases Reader.readSlicePass_spec delim b rd s h hns with
      ⟨y, hy, -⟩ | ⟨b1, rd1, s1, hy, -, -, -, he, hroom, -⟩
    · exact ⟨y, by simp only [Reader.readSliceLoop, hy]⟩
    · rcases hm with hm | hm
      · exact absurd he hm
      · omega
  | succ fuel ih =>
    intro b rd s h hns hm
    rcases Reader.readSlicePass_spec delim b rd s h hns with
      ⟨y, hy, -⟩ | ⟨b1, rd1, s1, hy, hWF1, hns1, hlen, he, hroom, hprog⟩
    · exact ⟨y, by simp only [Reader.readSliceLoop, hy]⟩
    · simp only [Reader.readSliceLoop, hy]
      apply ih b1 rd1 s1 hWF1 hns1
      rcases hprog with hp | hp
      · exact Or.inl hp
      · right
        rcases hm with hm | hm
        · exact absurd he hm
        · rw [hlen]; omega

/-- With a full buffer that holds no delimiter and no stored error, the loop of
`ReadSlice` breaks at once with `ErrBufferFull` and the whole buffer. -/
theorem Bufio.Reader.readSliceLoop_of_full (delim : Byte) (fuel : Nat) (b : Reader)
    (rd : ReadCloser) (s : Nat) (h : b.WF) (he : b.err = none)
    (hfull : b.buf.length ≤ b.w - b.r) (hnd : delim ∉ b.buf) :
    Reader.readSliceLoop delim fuel b rd s = some ((b.buf, some Error.ErrBufferFull),
      ⟨b.buf, b.w, b.w, b.err, b.lastByte, b.lastRuneSize⟩, rd) := by
  obtain ⟨h1, h2, h3⟩ := h
  have hr0 : b.r = 0 := by omega
  have hwl : b.w = b.buf.length := by omega
  have hub : b.unread = b.buf := by simp [Reader.unread, hr0, hwl]
  have hi : indexByte ((b.buf.take b.w).drop (b.r + s)) delim = none := by
    rw [Reader.drop_unread, indexByte_eq_none, hub]
    intro hm
    exact hnd (List.mem_of_mem_drop hm)
  have hp : b.readSlicePass delim rd s = Pass.ret ((b.buf, some Error.ErrBufferFull),
      ⟨b.buf, b.w, b.w, b.err, b.lastByte, b.lastRuneSize⟩, rd) := by
    unfold Reader.readSlicePass
    simp only [hi, he]
    rw [if_pos (by simp only [Reader.Buffered]; omega)]
  cases fuel <;> simp only [Reader.readSliceLoop, hp]

/-- Over a chunked source that holds at least a buffer of data without the
delimiter, and that does not report `io.EOF` along with the bytes that fill the
buffer, the loop of `ReadSlice` breaks with `ErrBufferFull` and the first
`len(buf)` bytes. -/
theorem Bufio.Reader.readSliceLoop_full (delim : Byte) (eager : Bool) (cerr : Option Error)
    (total : List Byte) (fuel : Nat) :
    ∀ (b : Reader) (rd : ReadCloser) (s : Nat),
      b.Feeds rd eager cerr total → b.err = none → b.buf.length ≤ total.length →
      (b.buf.length < total.length ∨ eager = false) →
      delim ∉ total.take b.buf.length → b.buf.length - (b.w - b.r) ≤ fuel →
      ∃ b1 rd1, Reader.readSliceLoop delim fuel b rd s =
          some ((total.take b.buf.length, some Error.ErrBufferFull), b1, rd1) ∧
        b1.Buffered = 0 ∧ b1.buf.length = b.buf.length := by
  have hfullcase : ∀ (fuel : Nat) (b : Reader) (rd : ReadCloser) (s : Nat),
      b.Feeds rd eager cerr total → b.err = none →
      delim ∉ total.take b.buf.length → b.buf.length - (b.w - b.r) = 0 →
      ∃ b1 rd1, Reader.readSliceLoop delim fuel b rd s =
          some ((total.take b.buf.length, some Error.ErrBufferFull), b1, rd1) ∧
        b1.Buffered = 0 ∧ b1.buf.length = b.buf.length := by
    intro fuel b rd s hf he hnd hfull
    obtain ⟨log, d, plan, hrc, hWF, hplan, -, htot⟩ := hf
    have hub : b.unread = b.buf := by
      obtain ⟨h1, h2, h3⟩ := hWF
      have hr0 : b.r = 0 := by omega
      have hwl : b.w = b.buf.length := by omega
      simp [Reader.unread, hr0, hwl]
    have htk : total.take b.buf.length = b.buf := by
      rw [← htot, hub, List.take_left]
    rw [htk] at hnd ⊢
    refine ⟨⟨b.buf, b.w, b.w, b.err, b.lastByte, b.lastRuneSize⟩, rd,
      Reader.readSliceLoop_of_full delim fuel b rd s hWF he (by omega) hnd, ?_, rfl⟩
    simp [Reader.Buffered]
  induction fuel with
  | zero =>
    intro b rd s hf he hlen hmore hnd hfuel
    exact hfullcase 0 b rd s hf he hnd (by omega)
  | succ fuel ih =>
    intro b rd s hf he hlen hmore hnd hfuel
    by_cases hfull : b.buf.length - (b.w - b.r) = 0
    · exact hfullcase (fuel + 1) b rd s hf he hnd hfull
    · obtain ⟨log, d, plan, hrc, hWF, hplan, -, htot⟩ := hf
      have hl := Reader.unread_length b hWF
      have hroom : b.w - b.r < b.buf.length := by
        have := hWF.2.1
        omega
      have htl : total.length = b.unread.length + d.length := by
        rw [← htot, List.length_append]
      have hupre : b.unread = total.take b.unread.length := by
        rw [← htot, List.take_left]
      have hi : indexByte ((b.buf.take b.w).drop (b.r + s)) delim = none := by
        rw [Reader.drop_unread, indexByte_eq_none]
        intro hm
        have hm1 : delim ∈ b.unread := List.mem_of_mem_drop hm
        rw [hupre] at hm1
        apply hnd
        have hsub : total.take b.unread.length =
            (total.take b.buf.length).take b.unread.length := by
          rw [List.take_take]
          congr 1
          omega
        rw [hsub] at hm1
        exact List.mem_of_mem_take hm1
      have hd : d ≠ [] := by
        intro hd
        rw [hd] at htl
        simp at htl
        omega
      obtain ⟨b1, got, rest1, plan1, log1, f1, f2, f3, f4, f5, f6, f7, f8, -, f10⟩ :=
        Reader.fill_chunked b hWF hroom he log d plan eager cerr hplan
      have hgot := List.length_pos.mpr (f3 hd)
      have hl1 := Reader.unread_length b1 f5
      have hl1' : b1.unread.length = b.unread.length + got.length := by
        rw [f4, List.length_append]
      have htot1 : b1.unread ++ rest1 = total := by
        rw [f4, List.append_assoc, f2, htot]
      have he1 : b1.err = none := by
        rcases hmore with hm | hm
        · rcases f8 with h8 | ⟨-, h8⟩
          · exact h8
          · have hb1 := f5.2.1
            rw [h8] at htot1
            have : total.length = b1.unread.length := by rw [← htot1]; simp
            omega
        · exact f10 hm hd
      have hp : b.readSlicePass delim rd s =
          Pass.again (b1, chunkedFrom log1 rest1 plan1 eager cerr, b.w - b.r) := by
        unfold Reader.readSlicePass
        simp only [hi, he]
        rw [if_neg (by simp only [Reader.Buffered]; omega)]
        simp only [hrc, f1]
      obtain ⟨b2, rd2, g1, g2, g3⟩ := ih b1 (chunkedFrom log1 rest1 plan1 eager cerr) (b.w - b.r)
        ⟨log1, rest1, plan1, rfl, f5, f7, Or.inl he1, htot1⟩ he1 (by rw [f6]; exact hlen)
        (by rw [f6]; exact hmore) (by rw [f6]; exact hnd) (by rw [f6]; omega)
      refine ⟨b2, rd2, ?_, g2, g3.trans f6⟩
      simp only [Reader.readSliceLoop, hp, g1, f6]

/-- `ReadSlice` returns what its loop breaks with; the statements after the
loop only record the last byte. -/
theorem Bufio.Reader.ReadSlice_of_loop (fuel : Nat) (b : Reader) (rd : ReadCloser) (delim : Byte)
    (y : (List Byte × Option Error) × Reader × ReadCloser)
    (h : Reader.readSliceLoop delim fuel b rd 0 = some y) :
    ∃ b1, b.ReadSlice fuel rd delim = some (y.1, b1, y.2.2) ∧ b1.Buffered = y.2.1.Buffered ∧
      b1.buf.length = y.2.1.buf.length := by
  obtain ⟨⟨line, err⟩, b2, rd2⟩ := y
  unfold Reader.ReadSlice
  rw [h]
  simp only
  cases line.getLast? with
  | none => exact ⟨b2, rfl, rfl, rfl⟩
  | some c => exact ⟨_, rfl, rfl, rfl⟩

theorem Bufio.Reader.loop_of_ReadSlice (fuel : Nat) (b : Reader) (rd : ReadCloser) (delim : Byte)
    (x : (List Byte × Option Error) × Reader × ReadCloser)
    (h : b.ReadSlice fuel rd delim = some x) :
    ∃ y, Reader.readSliceLoop delim fuel b rd 0 = some y ∧ y.1 = x.1 := by
  cases hy : Reader.readSliceLoop delim fuel b rd 0 with
  | none => simp [Reader.ReadSlice, hy] at h
  | some y =>
    obtain ⟨b1, h1, -⟩ := Reader.ReadSlice_of_loop fuel b rd delim y hy
    rw [h1] at h
    simp only [Option.some.injEq] at h
    exact ⟨y, rfl, by rw [← h]⟩

theorem Bufio.NewReaderSize_length (size : Int) :
    (NewReaderSize size).buf.length = (max size 16).toNat := by
  simp [NewReaderSize, Reader.reset, minReadBufferSize]

theorem Bufio.NewReaderSize_pos (size : Int) : 0 < (NewReaderSize size).buf.length := by
  rw [NewReaderSize_length]
  omega

theorem Bufio.NewWriterSize_length (size : Int) :
    (NewWriterSize size).buf.length = if size ≤ 0 then 4096 else size.toNat := by
  simp only [NewWriterSize, defaultBufSize, List.length_replicate]
  split <;> rfl

theorem sink_acceptsAll (cerr : Option Error) : (sink cerr).AcceptsAll := by
  intro s p
  rfl

theorem flaky_acceptsAll (k : Nat) (cerr : Error) : (flaky k cerr).AcceptsAll := by
  intro s p
  rfl

theorem Writer.Reset_of_close_ok (w : Writer) (nw : WriteCloser) (h : w.wc.Close.1 = none) :
    w.Reset nw = (none, { wc := nw, w := w.w.Reset }, w.wc.Close.2) := by
  simp [Writer.Reset, h]

theorem Reader.Reset_ok_of_close (r : Reader) (nr : ReadCloser) (h : r.rc.Close.1 = none) :
    r.Reset nr = (none, { rc := nr, r := r.r.Reset }, r.rc.Close.2) := by
  simp [Reader.Reset, h]

/-! ## The representation invariants hold in every reachable state -/

theorem Bufio.copyAt_length (buf : List Byte) (off : Nat) (src : List Byte)
    (h : off ≤ buf.length) :
    (copyAt buf off src).1.length = buf.length ∧ off + (copyAt buf off src).2 ≤ buf.length := by
  simp only [copyAt, List.length_append, List.length_take, List.length_drop]
  omega

theorem Bufio.NewWriterSize_WF (size : Int) : (NewWriterSize size).WF := by
  simp [Writer.WF, NewWriterSize]

theorem Bufio.Writer.Reset_WF (b : Writer) : b.Reset.WF := by
  simp [Writer.WF, Writer.Reset]

theorem Bufio.Writer.Flush_WF (b : Writer) (wr : WriteCloser) (h : b.WF) :
    (b.Flush wr).2.1.WF ∧ (b.Flush wr).2.1.buf.length = b.buf.length := by
  unfold Writer.WF at h
  unfold Writer.Flush
  split
  · exact ⟨h, rfl⟩
  · split
    · exact ⟨h, rfl⟩
    · simp only
      split
      · simp only [Writer.WF]
        split
        · simp only [List.length_append, List.length_drop, List.length_take]
          omega
        · exact ⟨by omega, rfl⟩
      · exact ⟨by simp [Writer.WF], rfl⟩

theorem Bufio.Writer.writeLoop_WF (fuel : Nat) :
    ∀ (b : Writer) (wr : WriteCloser) (p : List Byte) (nn : Nat)
      (x : Writer × WriteCloser × List Byte × Nat),
      b.WF → Writer.writeLoop fuel b wr p nn = some x →
      x.1.WF ∧ x.1.buf.length = b.buf.length := by
  induction fuel with
  | zero =>
    intro b wr p nn x h hx
    unfold Writer.writeLoop at hx
    split at hx
    · simp at hx
    · simp only [Option.some.injEq] at hx
      subst hx
      exact ⟨h, rfl⟩
  | succ fuel ih =>
    intro b wr p nn x h hx
    unfold Writer.writeLoop at hx
    split at hx
    · split at hx
      · exact ih ⟨(wr.Write p).2.1, b.buf, b.n⟩ _ _ _ x h hx
      · have hc := Bufio.copyAt_length b.buf b.n p h
        have hf := Bufio.Writer.Flush_WF ⟨b.err, (copyAt b.buf b.n p).1, b.n + (copyAt b.buf b.n p).2⟩
          wr (by simp only [Writer.WF]; omega)
        obtain ⟨i1, i2⟩ := ih _ _ _ _ x hf.1 hx
        exact ⟨i1, by rw [i2, hf.2]; exact hc.1⟩
    · simp only [Option.some.injEq] at hx
      subst hx
      exact ⟨h, rfl⟩

/-- `Write` keeps the invariant and the size of the buffer. -/
theorem Bufio.Writer.Write_WF (fuel : Nat) (b : Writer) (wr : WriteCloser) (p : List Byte)
    (x : (Nat × Option Error) × Writer × WriteCloser) (h : b.WF)
    (hx : b.Write fuel wr p = some x) :
    x.2.1.WF ∧ x.2.1.buf.length = b.buf.length := by
  unfold Writer.Write at hx
  cases hl : Writer.writeLoop fuel b wr p 0 with
  | none => simp [hl] at hx
  | some y =>
    obtain ⟨i1, i2⟩ := Bufio.Writer.writeLoop_WF fuel b wr p 0 y h hl
    obtain ⟨b1, wr1, p1, nn1⟩ := y
    simp only [hl] at hx
    split at hx
    · simp only [Option.some.injEq] at hx
      subst hx
      exact ⟨i1, i2⟩
    · simp only [Option.some.injEq] at hx
      subst hx
      have hc := Bufio.copyAt_length b1.buf b1.n p1 i1
      exact ⟨by simp only [Writer.WF]; omega, by simp only; rw [hc.1]; exact i2⟩

theorem Bufio.NewReaderSize_WF (size : Int) : (NewReaderSize size).WF :=
  ⟨Nat.le_refl _, Nat.zero_le _, Bufio.NewReaderSize_pos size⟩

theorem Bufio.Reader.Reset_keeps_WF (b : Reader) (h : 0 < b.buf.length) : b.Reset.WF :=
  ⟨Nat.le_refl _, Nat.zero_le _, h⟩

/-- `ReadByte` keeps the invariant and the size of the buffer, whatever the
stream. -/
theorem Bufio.Reader.readByteLoop_WF (fuel : Nat) :
    ∀ (b : Reader) (rd : ReadCloser) (x : (Byte × Option Error) × Reader × ReadCloser),
      b.WF → Reader.readByteLoop fuel b rd = some x →
      x.2.1.WF ∧ x.2.1.buf.length = b.buf.length := by
  have hpass : ∀ (b : Reader) (rd : ReadCloser), b.WF →
      (∃ x, b.readBytePass rd = Pass.ret x ∧ x.2.1.WF ∧ x.2.1.buf.length = b.buf.length) ∨
      (∃ s, b.readBytePass rd = Pass.again s ∧ s.1.WF ∧ s.1.buf.length = b.buf.length) := by
    intro b rd h
    unfold Reader.readBytePass
    by_cases hrw : b.r = b.w
    · rw [if_pos hrw]
      cases he : b.err with
      | some e => exact Or.inl ⟨_, rfl, h, rfl⟩
      | none =>
        obtain ⟨b1, rd1, got, f1, -, f3, f4, -⟩ := Reader.fill_spec b rd h
          (by have := h.2.2; omega)
        right
        exact ⟨(b1, rd1), by simp only [f1], f3, f4⟩
    · rw [if_neg hrw]
      obtain ⟨h1, h2, h3⟩ := h
      have hlt : b.r < b.buf.length := by omega
      left
      rw [List.getElem?_eq_getElem hlt]
      exact ⟨_, rfl, ⟨by simp only; omega, h2, h3⟩, rfl⟩
  induction fuel with
  | zero =>
    intro b rd x h hx
    rcases hpass b rd h with ⟨y, hy, hw, hl⟩ | ⟨s, hs, -⟩
    · simp only [Reader.readByteLoop, hy, Option.some.injEq] at hx
      subst hx
      exact ⟨hw, hl⟩
    · simp [Reader.readByteLoop, hs] at hx
  | succ fuel ih =>
    intro b rd x h hx
    rcases hpass b rd h with ⟨y, hy, hw, hl⟩ | ⟨s, hs, hw, hl⟩
    · simp only [Reader.readByteLoop, hy, Option.some.injEq] at hx
      subst hx
      exact ⟨hw, hl⟩
    · simp only [Reader.readByteLoop, hs] at hx
      obtain ⟨i1, i2⟩ := ih s.1 s.2 x hw hx
      exact ⟨i1, i2.trans hl⟩

/-- `ReadSlice` keeps the invariant and the size of the buffer, whatever the
stream. -/
theorem Bufio.Reader.readSliceLoop_WF (delim : Byte) (fuel : Nat) :
    ∀ (b : Reader) (rd : ReadCloser) (s : Nat)
      (x : (List Byte × Option Error) × Reader × ReadCloser),
      b.WF → Reader.readSliceLoop delim fuel b rd s = some x →
      x.2.1.WF ∧ x.2.1.buf.length = b.buf.length := by
  have hpass : ∀ (b : Reader) (rd : ReadCloser) (s : Nat), b.WF →
      (∃ x, b.readSlicePass delim rd s = Pass.ret x ∧ x.2.1.WF ∧
        x.2.1.buf.length = b.buf.length) ∨
      (∃ y, b.readSlicePass delim rd s = Pass.again y ∧ y.1.WF ∧
        y.1.buf.length = b.buf.length) := by
    intro b rd s h
    unfold Reader.readSlicePass
    cases hi : indexByte ((b.buf.take b.w).drop (b.r + s)) delim with
    | some i =>
      left
      have hget := Bufio.indexByte_eq_some _ _ _ hi
      obtain ⟨h1, h2, h3⟩ := h
      have hlt : b.r + s + i < b.w := by
        have := (List.getElem?_eq_some_iff.mp hget).1
        simp [List.length_drop, List.length_take] at this
        omega
      exact ⟨_, rfl, ⟨by simp only; omega, h2, h3⟩, rfl⟩
    | none =>
      simp only
      cases he : b.err with
      | some e =>
        left
        exact ⟨_, rfl, ⟨Nat.le_refl _, h.2.1, h.2.2⟩, rfl⟩
      | none =>
        simp only
        by_cases hfull : b.Buffered ≥ b.buf.length
        · left
          rw [if_pos hfull]
          exact ⟨_, rfl, ⟨Nat.le_refl _, h.2.1, h.2.2⟩, rfl⟩
        · right
          rw [if_neg hfull]
          obtain ⟨b1, rd1, got, f1, -, f3, f4, -⟩ := Reader.fill_spec b rd h
            (by simp only [Reader.Buffered] at hfull; omega)
          exact ⟨(b1, rd1, b.w - b.r), by simp only [f1], f3, f4⟩
  induction fuel with
  | zero =>
    intro b rd s x h hx
    rcases hpass b rd s h with ⟨y, hy, hw, hl⟩ | ⟨y, hy, -⟩
    · simp only [Reader.readSliceLoop, hy, Option.some.injEq] at hx
      subst hx
      exact ⟨hw, hl⟩
    · simp [Reader.readSliceLoop, hy] at hx
  | succ fuel ih =>
    intro b rd s x h hx
    rcases hpass b rd s h with ⟨y, hy, hw, hl⟩ | ⟨y, hy, hw, hl⟩
    · simp only [Reader.readSliceLoop, hy, Option.some.injEq] at hx
      subst hx
      exact ⟨hw, hl⟩
    · simp only [Reader.readSliceLoop, hy] at hx
      obtain ⟨i1, i2⟩ := ih y.1 y.2.1 y.2.2 x hw hx
      exact ⟨i1, i2.trans hl⟩

/-! ## The writer's contracts -/

/-- C1. If the final `Flush` of `Writer.Close` returns an error `e`, `Close`
returns `e`, and the stream as the flush left it receives exactly one call
more, a `Close`, whose own answer (nil or any error) is not what is
returned. -/
theorem Writer.Close_reports_flush_error (w : Writer) (e : Error)
    (h : w.Flush.1 = some e) :
    w.Close.1 = some e ∧
      w.Close.2.wc.log = w.Flush.2.wc.log ++ [WCall.close w.Flush.2.wc.Close.1] ∧
      w.Close.2.wc.closeCalls = w.wc.closeCalls + 1 ∧
      w.Close.2.w = w.Flush.2.w := by
  have hf : (w.w.Flush w.wc).1 = some e := h
  have hc := Bufio.Writer.Flush_closeCalls w.w w.wc
  refine ⟨?_, ?_, ?_, ?_⟩
  · simp [Writer.Close, hf]
  · simp [Writer.Close, hf, Writer.Flush, WriteCloser.Close]
  · simp [Writer.Close, hf, WriteCloser.Close_closeCalls, hc]
  · simp [Writer.Close, hf, Writer.Flush]

/-- C2. On a writer with no stored error over a stream that accepts every
write, `Close` hands the pending bytes `buf[0:n]` to the stream in one `Write`
(none when nothing is pending), then calls the stream's `Close` once, and
returns what that `Close` answered. -/
theorem Writer.Close_flushes_then_closes (w : Writer) (hacc : w.wc.AcceptsAll)
    (he : w.w.err = none) (hn : w.w.n ≤ w.w.buf.length) :
    w.Close.2.wc.log =
        w.wc.log ++ (if w.w.n = 0 then [] else [WCall.write (w.w.buf.take w.w.n) w.w.n none])
          ++ [WCall.close w.Close.1] ∧
      w.Close.2.wc.received = w.wc.received ++ w.w.buf.take w.w.n ∧
      w.Close.2.wc.closeCalls = w.wc.closeCalls + 1 ∧
      w.Close.1 = w.Flush.2.wc.Close.1 := by
  by_cases hz : w.w.n = 0
  · have hf := Bufio.Writer.Flush_empty w.w w.wc he hz
    simp [Writer.Close, Writer.Flush, hf, hz, WriteCloser.Close_closeCalls,
      WriteCloser.Close_received]
    simp [WriteCloser.Close]
  · have hf := Bufio.Writer.Flush_of_acceptsAll w.w w.wc hacc he hn hz
    obtain ⟨-, -, h3, h4, -⟩ := WriteCloser.Write_of_acceptsAll w.wc hacc (w.w.buf.take w.w.n)
    have hlen : (List.take w.w.n w.w.buf).length = w.w.n := by simp [hn]
    simp [Writer.Close, Writer.Flush, hf, hz, WriteCloser.Close_closeCalls,
      WriteCloser.Close_received, h4, WriteCloser.Write_closeCalls]
    simp [WriteCloser.Close, h3, hlen]

/-- C4. When the current stream closes without error, `Writer.Reset` returns
nil and adopts the new stream untouched; the old stream has received only the
`Close`; the buffer is empty with its size unchanged and the stored error is
cleared; and a later `Write` then `Flush` deliver exactly their data to the new
stream. -/
theorem Writer.Reset_adopts (w : Writer) (nw : WriteCloser) (h : w.wc.Close.1 = none) :
    (w.Reset nw).1 = none ∧
      (w.Reset nw).2.1.wc = nw ∧
      (w.Reset nw).2.2.log = w.wc.log ++ [WCall.close none] ∧
      (w.Reset nw).2.2.received = w.wc.received ∧
      (w.Reset nw).2.1.Buffered = 0 ∧
      (w.Reset nw).2.1.Available = (w.Reset nw).2.1.Size ∧
      (w.Reset nw).2.1.Size = w.Size ∧
      (w.Reset nw).2.1.w.err = none ∧
      (nw.AcceptsAll → ∀ (fuel : Nat) (data : List Byte), ∃ w1,
        (w.Reset nw).2.1.Write (fuel + 1) data = some ((data.length, none), w1) ∧
          w1.Flush.1 = none ∧ w1.Flush.2.wc.received = nw.received ++ data ∧
          w1.Flush.2.Buffered = 0) := by
  have hr : w.Reset nw = (none, { wc := nw, w := w.w.Reset }, w.wc.Close.2) := by
    simp [Writer.Reset, h]
  rw [hr]
  refine ⟨rfl, rfl, ?_, ?_, rfl, ?_, rfl, rfl, ?_⟩
  · simp [WriteCloser.Close_log, h]
  · simp [WriteCloser.Close_received]
  · simp [Writer.Available, Writer.Size, Bufio.Writer.Available, Bufio.Writer.Size,
      Bufio.Writer.Reset]
  · intro hacc fuel data
    obtain ⟨b1, wr1, h1, h2, h3, -, h5, -, -⟩ :=
      Bufio.Writer.Write_Flush fuel w.w.Reset nw data hacc rfl rfl
    refine ⟨{ wc := wr1, w := b1 }, ?_, ?_, ?_, ?_⟩
    · simp [Writer.Write, h1]
    · simpa [Writer.Flush] using h2
    · simpa [Writer.Flush] using h3
    · simpa [Writer.Flush, Writer.Buffered, Bufio.Writer.Buffered] using h5

/-- C6. Once `Flush` has returned an error `e`, every later sequence of `Write`
and `Flush` calls reports `(0, e)` at each call and leaves the writer and its
stream, call log included, exactly as the failed `Flush` left them. -/
theorem Writer.sticky_error (w : Writer) (e : Error) (h : w.Flush.1 = some e)
    (fuel : Nat) (ops : List WOp) :
    w.Flush.2.calls fuel ops = some (ops.map (fun _ => (0, some e)), w.Flush.2) := by
  have herr : w.Flush.2.w.err = some e := by
    have := Bufio.Writer.Flush_err w.w w.wc
    simpa [Writer.Flush] using this.trans h
  generalize w.Flush.2 = v at herr
  induction ops with
  | nil => rfl
  | cons op ops ih =>
    have hc : v.call fuel op = some ((0, some e), v) := by
      cases op with
      | write p =>
        simp [Writer.call, Writer.Write, Bufio.Writer.Write_sticky fuel v.w v.wc p e herr]
      | flush =>
        simp [Writer.call, Writer.Flush, Bufio.Writer.Flush_sticky v.w v.wc e herr]
    simp [Writer.calls, hc, ih]

/-- C7. On a fresh writer of any requested size over a stream that accepts
every write, `Write(data)` returns `(len(data), nil)`; data that fits the
buffer stays buffered with no call on the stream, larger data goes to the
stream in one direct `Write`; after `Flush` the stream has received exactly
`data` more and nothing is buffered. -/
theorem Writer.Write_Flush_roundtrip (wc : WriteCloser) (hacc : wc.AcceptsAll)
    (size : Int) (data : List Byte) (fuel : Nat) :
    ∃ w1, (NewWriterSize wc size).Write (fuel + 1) data = some ((data.length, none), w1) ∧
      (data.length ≤ (NewWriterSize wc size).Size →
        w1.wc.log = wc.log ∧ w1.Buffered = data.length) ∧
      ((NewWriterSize wc size).Size < data.length →
        w1.wc.log = wc.log ++ [WCall.write data data.length none] ∧ w1.Buffered = 0) ∧
      w1.Flush.1 = none ∧
      w1.Flush.2.wc.received = wc.received ++ data ∧
      w1.Flush.2.Buffered = 0 := by
  obtain ⟨b1, wr1, h1, h2, h3, -, h5, -, -⟩ :=
    Bufio.Writer.Write_Flush fuel (Bufio.NewWriterSize size) wc data hacc rfl rfl
  refine ⟨{ wc := wr1, w := b1 }, ?_, ?_, ?_, ?_, ?_, ?_⟩
  · simp [Writer.Write, NewWriterSize, h1]
  · intro hle
    have hb := Bufio.Writer.Write_buffered (fuel + 1) (Bufio.NewWriterSize size) wc data rfl rfl hle
    rw [hb] at h1
    simp only [Option.some.injEq, Prod.mk.injEq, true_and] at h1
    obtain ⟨hb1, hw1⟩ := h1
    subst hb1 hw1
    simp [Writer.Buffered, Bufio.Writer.Buffered]
  · intro hlt
    have hb := Bufio.Writer.Write_direct fuel (Bufio.NewWriterSize size) wc data hacc rfl rfl hlt
    rw [hb] at h1
    simp only [Option.some.injEq, Prod.mk.injEq, true_and] at h1
    obtain ⟨hb1, hw1⟩ := h1
    subst hb1 hw1
    obtain ⟨-, -, h3, -⟩ := WriteCloser.Write_of_acceptsAll wc hacc data
    simp [Writer.Buffered, Bufio.Writer.Buffered, h3]
    rfl
  · simpa [Writer.Flush] using h2
  · simpa [Writer.Flush] using h3
  · simpa [Writer.Flush, Writer.Buffered, Bufio.Writer.Buffered] using h5

/-! ## The contracts of `Reset`, of the sizes and of the reader -/

/-- C3. When the `Close` of the current stream fails with `e`, `Reset` of a
writer and of a reader returns `e`; the wrapper keeps its `bufio` half as it
was (buffer, pending or unread bytes, stored error) and stays bound to the old
stream, which has received the one `Close` and nothing else; the new stream is
left as it was given.  A later `Reset` whose `Close` succeeds returns nil and
adopts its argument. -/
theorem Reset_aborts_on_close_error (w : Writer) (nw nw2 : WriteCloser) (r : Reader)
    (nr nr2 : ReadCloser) (e e2 : Error)
    (hw : w.wc.Close.1 = some e) (hr : r.rc.Close.1 = some e2) :
    (w.Reset nw = (some e, { wc := w.wc.Close.2, w := w.w }, nw) ∧
        w.wc.Close.2.log = w.wc.log ++ [WCall.close (some e)] ∧
        ((w.Reset nw).2.1.wc.Close.1 = none →
          ((w.Reset nw).2.1.Reset nw2).1 = none ∧ ((w.Reset nw).2.1.Reset nw2).2.1.wc = nw2)) ∧
      (r.Reset nr = (some e2, { r := r.r, rc := r.rc.Close.2 }, nr) ∧
        r.rc.Close.2.log = r.rc.log ++ [RCall.close (some e2)] ∧
        ((r.Reset nr).2.1.rc.Close.1 = none →
          ((r.Reset nr).2.1.Reset nr2).1 = none ∧ ((r.Reset nr).2.1.Reset nr2).2.1.rc = nr2)) := by
  refine ⟨⟨?_, ?_, ?_⟩, ⟨?_, ?_, ?_⟩⟩
  · simp [Writer.Reset, hw]
  · rw [WriteCloser.Close_log, hw]
  · intro h
    rw [Writer.Reset_of_close_ok _ nw2 h]
    exact ⟨rfl, rfl⟩
  · simp [Reader.Reset, hr]
  · rw [ReadCloser.Close_appends, hr]
  · intro h
    rw [Reader.Reset_ok_of_close _ nr2 h]
    exact ⟨rfl, rfl⟩

/-- C5. When the current stream closes without error, `Reader.Reset` returns
nil and adopts the new stream; the old stream has received one `Close` more;
nothing is buffered and the size is unchanged; and over a new stream that
delivers `data` in chunks, reading byte by byte until an error returns exactly
`data`, from its first byte, and ends with `io.EOF`. -/
theorem Reader.Reset_reads_new_stream (r : Reader) (nr : ReadCloser) (h : r.rc.Close.1 = none) :
    (r.Reset nr).1 = none ∧
      (r.Reset nr).2.1.rc = nr ∧
      (r.Reset nr).2.2.log = r.rc.log ++ [RCall.close none] ∧
      (r.Reset nr).2.2.closeCalls = r.rc.closeCalls + 1 ∧
      (r.Reset nr).2.1.Buffered = 0 ∧
      (r.Reset nr).2.1.Size = r.Size ∧
      (0 < r.Size → ∀ (data : List Byte) (plan : List Nat) (eager : Bool) (cerr : Option Error)
        (fuel calls : Nat), nr = chunked data plan eager cerr → (∀ c ∈ plan, 1 ≤ c) →
        data.length < calls →
        ∃ r1, (r.Reset nr).2.1.readAllBytes (fuel + 1) calls = some (data, Error.EOF, r1)) := by
  have hreset := Reader.Reset_ok_of_close r nr h
  rw [hreset]
  refine ⟨rfl, rfl, ?_, ?_, rfl, rfl, ?_⟩
  · simp only [ReadCloser.Close_appends, h]
  · exact ReadCloser.Close_counts r.rc
  · intro hpos data plan eager cerr fuel calls hnr hplan hcalls
    subst hnr
    have hf : (r.r.Reset).Feeds (chunked data plan eager cerr) eager cerr data :=
      Reader.feeds_new data plan eager cerr r.r.Reset hplan rfl rfl rfl hpos
    obtain ⟨r1, h1, -⟩ := Reader.readAllBytes_feeds eager cerr fuel data
      { rc := chunked data plan eager cerr, r := r.r.Reset } calls hf hcalls
    exact ⟨r1, h1⟩

/-- C8. For every data, every plan of non-empty chunks (with `io.EOF` reported
along with the last byte or on a read of its own) and every requested size,
calling `ReadByte` on a new reader until it returns an error yields exactly the
data, and the error is `io.EOF`. -/
theorem Reader.ReadByte_reconstructs (data : List Byte) (plan : List Nat) (eager : Bool)
    (cerr : Option Error) (size : Int) (fuel calls : Nat)
    (hplan : ∀ c ∈ plan, 1 ≤ c) (hcalls : data.length < calls) :
    ∃ r1, (NewReaderSize (chunked data plan eager cerr) size).readAllBytes (fuel + 1) calls =
      some (data, Error.EOF, r1) := by
  have hf : (Bufio.NewReaderSize size).Feeds (chunked data plan eager cerr) eager cerr data :=
    Reader.feeds_new data plan eager cerr _ hplan rfl rfl rfl (Bufio.NewReaderSize_pos size)
  obtain ⟨r1, h1, -⟩ := Reader.readAllBytes_feeds eager cerr fuel data
    (NewReaderSize (chunked data plan eager cerr) size) calls hf hcalls
  exact ⟨r1, h1⟩

/-- Counterexample to C9 as stated. For the requested size 5 the writer's buffer has 5
bytes and the reader's has 16. -/
theorem NewWriterSize_NewReaderSize_differ :
    (NewWriterSize (sink none) 5).Size = 5 ∧
      (NewReaderSize (chunked [] [] false none) 5).Size = 16 ∧
      ¬ (NewWriterSize (sink none) 5).Size = (NewReaderSize (chunked [] [] false none) 5).Size := by
  decide

/-- C9 (amended). Both sizes are at least the requested size; the writer's is
the default 4096 for a size of zero or less and the size otherwise, the
reader's is the size raised to 16; so they agree exactly from 16 on; and
`NewWriter` and `NewReader` give 4096. -/
theorem NewWriterSize_NewReaderSize_sizes (wc : WriteCloser) (rc : ReadCloser) (size : Int) :
    size ≤ (NewWriterSize wc size).Size ∧ size ≤ (NewReaderSize rc size).Size ∧
      (NewWriterSize wc size).Size = (if size ≤ 0 then 4096 else size.toNat) ∧
      (NewReaderSize rc size).Size = (max size 16).toNat ∧
      ((NewWriterSize wc size).Size = (NewReaderSize rc size).Size ↔ 16 ≤ size) ∧
      (NewWriter wc).Size = 4096 ∧ (NewReader rc).Size = 4096 := by
  have hw : (NewWriterSize wc size).Size = (if size ≤ 0 then 4096 else size.toNat) :=
    Bufio.NewWriterSize_length size
  have hr : (NewReaderSize rc size).Size = (max size 16).toNat :=
    Bufio.NewReaderSize_length size
  have hw0 : (NewWriter wc).Size = 4096 := by
    simp [NewWriter, Writer.Size, Bufio.NewWriter, Bufio.Writer.Size, Bufio.NewWriterSize_length,
      Bufio.defaultBufSize]
  have hr0 : (NewReader rc).Size = 4096 := by
    simp [NewReader, Reader.Size, Bufio.NewReader, Bufio.Reader.Size, Bufio.NewReaderSize_length,
      Bufio.defaultBufSize]
  refine ⟨?_, ?_, hw, hr, ?_, hw0, hr0⟩
  · rw [hw]; split <;> omega
  · rw [hr]; omega
  · rw [hw, hr]; split <;> omega

/-- Counterexample to C10 as stated. Over a source that holds exactly 16 bytes, none
of them the delimiter, and reports `io.EOF` along with them, `ReadSlice` on a
new reader of size 16 returns the 16 bytes with `io.EOF`, not
`ErrBufferFull`. -/
theorem Reader.ReadSlice_eof_not_buffer_full :
    (NewReaderSize (chunked (List.replicate 16 7) [] true none) 16).Size = 16 ∧
      (List.replicate 16 (7 : Byte)).length = 16 ∧
      (10 : Byte) ∉ List.replicate 16 (7 : Byte) ∧
      ((NewReaderSize (chunked (List.replicate 16 7) [] true none) 16).ReadSlice 16 10).map
        (fun x => x.1) = some (List.replicate 16 7, some Error.EOF) := by
  decide!

/-- C10 (amended). Over a source that delivers `data` in non-empty chunks,
holds at least `Size()` bytes with no delimiter among the first `Size()`, and
either holds more than `Size()` bytes or reports `io.EOF` only on a read of its
own, `ReadSlice` on a new reader returns the first `Size()` bytes with
`ErrBufferFull` and leaves nothing buffered.  On every reader and stream,
`ReadSlice` returns within `Size()` fills, and its error is non-nil exactly
when the bytes returned do not end in the delimiter. -/
theorem Reader.ReadSlice_buffer_full (data : List Byte) (plan : List Nat) (eager : Bool)
    (cerr : Option Error) (size : Int) (delim : Byte) (fuel : Nat)
    (hplan : ∀ c ∈ plan, 1 ≤ c)
    (hlen : (NewReaderSize (chunked data plan eager cerr) size).Size ≤ data.length)
    (hmore : (NewReaderSize (chunked data plan eager cerr) size).Size < data.length ∨
      eager = false)
    (hnd : delim ∉ data.take (NewReaderSize (chunked data plan eager cerr) size).Size)
    (hfuel : (NewReaderSize (chunked data plan eager cerr) size).Size ≤ fuel) :
    (∃ r1, (NewReaderSize (chunked data plan eager cerr) size).ReadSlice fuel delim =
        some ((data.take (NewReaderSize (chunked data plan eager cerr) size).Size,
          some Error.ErrBufferFull), r1) ∧ r1.Buffered = 0) ∧
      (∀ (r : Reader) (n : Nat), r.r.WF →
        (∀ x, r.ReadSlice n delim = some x →
          (x.1.2 ≠ none ↔ x.1.1.getLast? ≠ some delim)) ∧
        (r.Size ≤ n → ∃ x, r.ReadSlice n delim = some x)) := by
  constructor
  · have hf : (Bufio.NewReaderSize size).Feeds (chunked data plan eager cerr) eager cerr data :=
      Reader.feeds_new data plan eager cerr _ hplan rfl rfl rfl (Bufio.NewReaderSize_pos size)
    obtain ⟨b1, rd1, h1, h2, -⟩ := Bufio.Reader.readSliceLoop_full delim eager cerr data fuel
      (Bufio.NewReaderSize size) (chunked data plan eager cerr) 0 hf rfl hlen hmore hnd
      (by
        have : (Bufio.NewReaderSize size).buf.length ≤ fuel := hfuel
        omega)
    obtain ⟨b2, h3, h4, -⟩ := Bufio.Reader.ReadSlice_of_loop fuel _ _ delim _ h1
    refine ⟨⟨b2, rd1⟩, ?_, ?_⟩
    · simp only [Reader.ReadSlice, NewReaderSize, h3]
      rfl
    · exact h4.trans h2
  · intro r n hWF
    constructor
    · intro x hx
      have hx' : ∃ x', r.r.ReadSlice n r.rc delim = some x' ∧ x'.1 = x.1 := by
        cases hy : r.r.ReadSlice n r.rc delim with
        | none => simp [Reader.ReadSlice, hy] at hx
        | some x' =>
          simp only [Reader.ReadSlice, hy, Option.some.injEq] at hx
          exact ⟨x', rfl, by rw [← hx]⟩
      obtain ⟨x', hx1, hx2⟩ := hx'
      obtain ⟨y, hy1, hy2⟩ := Bufio.Reader.loop_of_ReadSlice n r.r r.rc delim x' hx1
      have hs := Bufio.Reader.readSliceLoop_sound delim n r.r r.rc 0 y hWF (by simp) hy1
      rw [hy2, hx2] at hs
      rcases hs with ⟨s1, s2⟩ | ⟨s1, s2⟩
      · simp [s1, s2]
      · refine ⟨fun _ hl => s2 (List.mem_of_getLast?_eq_some hl), fun _ => s1⟩
    · intro hn
      obtain ⟨y, hy⟩ := Bufio.Reader.readSliceLoop_total delim n r.r r.rc 0 hWF (by simp)
        (Or.inr (by
          have : r.r.buf.length ≤ n := hn
          omega))
      obtain ⟨b1, h1, -⟩ := Bufio.Reader.ReadSlice_of_loop n r.r r.rc delim y hy
      exact ⟨(y.1, ⟨b1, y.2.2⟩), by simp only [Reader.ReadSlice, h1]⟩

/-! ## Instances -/

/-- The flush error wins at `brokenWriter`: the flush fails with error 7 after one byte, the
stream's `Close` fails with error 9, and `Close` returns error 7. -/
theorem Writer.Close_reports_flush_error_witness :
    brokenWriter.Flush.1 = some (Error.other 7) ∧
      (brokenWriter.Close.1 = some (Error.other 7) ∧
        brokenWriter.Close.2.wc.log =
          brokenWriter.Flush.2.wc.log ++ [WCall.close brokenWriter.Flush.2.wc.Close.1] ∧
        brokenWriter.Close.2.wc.closeCalls = brokenWriter.wc.closeCalls + 1 ∧
        brokenWriter.Close.2.w = brokenWriter.Flush.2.w) ∧
      brokenWriter.Close.2.wc.log =
        [WCall.write [1, 2] 1 (some (Error.other 7)), WCall.close (some (Error.other 9))] :=
  ⟨by decide, Writer.Close_reports_flush_error brokenWriter (Error.other 7) (by decide),
    by decide⟩

/-- Flush, then close, at `pendingWriter`: the two pending bytes are written, then the stream
is closed, and the error 9 of that `Close` is returned. -/
theorem Writer.Close_flushes_then_closes_witness :
    pendingWriter.wc.AcceptsAll ∧ pendingWriter.w.err = none ∧
      pendingWriter.w.n ≤ pendingWriter.w.buf.length ∧
      (pendingWriter.Close.2.wc.log =
          pendingWriter.wc.log ++ (if pendingWriter.w.n = 0 then []
            else [WCall.write (pendingWriter.w.buf.take pendingWriter.w.n) pendingWriter.w.n none])
            ++ [WCall.close pendingWriter.Close.1] ∧
        pendingWriter.Close.2.wc.received =
          pendingWriter.wc.received ++ pendingWriter.w.buf.take pendingWriter.w.n ∧
        pendingWriter.Close.2.wc.closeCalls = pendingWriter.wc.closeCalls + 1 ∧
        pendingWriter.Close.1 = pendingWriter.Flush.2.wc.Close.1) ∧
      pendingWriter.Close.1 = some (Error.other 9) :=
  ⟨sink_acceptsAll _, rfl, by decide,
    Writer.Close_flushes_then_closes pendingWriter (sink_acceptsAll _) rfl (by decide),
    by decide⟩

/-- An aborted reset at `flakyWriter` and `flakyReader`: the first `Reset` fails and changes
nothing but the old stream's log; the second succeeds. -/
theorem Reset_aborts_on_close_error_witness :
    flakyWriter.wc.Close.1 = some (Error.other 3) ∧
      flakyReader.rc.Close.1 = some (Error.other 4) ∧
      (flakyWriter.Reset (sink none)).2.1.wc.Close.1 = none ∧
      (flakyReader.Reset (chunked [1] [] false none)).2.1.rc.Close.1 = none ∧
      (flakyWriter.Reset (sink none) =
          (some (Error.other 3), { wc := flakyWriter.wc.Close.2, w := flakyWriter.w }, sink none) ∧
        ((flakyWriter.Reset (sink none)).2.1.Reset (sink (some Error.EOF))).1 = none ∧
        ((flakyWriter.Reset (sink none)).2.1.Reset (sink (some Error.EOF))).2.1.wc =
          sink (some Error.EOF)) ∧
      (flakyReader.Reset (chunked [1] [] false none) =
          (some (Error.other 4), { r := flakyReader.r, rc := flakyReader.rc.Close.2 },
            chunked [1] [] false none) ∧
        ((flakyReader.Reset (chunked [1] [] false none)).2.1.Reset
          (chunked [2] [] false none)).1 = none ∧
        ((flakyReader.Reset (chunked [1] [] false none)).2.1.Reset
          (chunked [2] [] false none)).2.1.rc = chunked [2] [] false none) :=
  have h := Reset_aborts_on_close_error flakyWriter (sink none) (sink (some Error.EOF))
    flakyReader (chunked [1] [] false none) (chunked [2] [] false none)
    (Error.other 3) (Error.other 4) (by decide) (by decide)
  ⟨by decide, by decide, by decide, by decide,
    ⟨h.1.1, h.1.2.2 (by decide)⟩, ⟨h.2.1, h.2.2.2 (by decide)⟩⟩

/-- A successful reset at `staleWriter`: after `Reset` onto a fresh sink, a `Write` of two
bytes and a `Flush` leave exactly those two bytes in the sink. -/
theorem Writer.Reset_adopts_witness :
    staleWriter.wc.Close.1 = none ∧ (sink none).AcceptsAll ∧
      (staleWriter.Reset (sink none)).1 = none ∧
      (staleWriter.Reset (sink none)).2.1.wc = sink none ∧
      (staleWriter.Reset (sink none)).2.2.log = staleWriter.wc.log ++ [WCall.close none] ∧
      (staleWriter.Reset (sink none)).2.1.Buffered = 0 ∧
      (staleWriter.Reset (sink none)).2.1.w.err = none ∧
      (∃ w1, (staleWriter.Reset (sink none)).2.1.Write (0 + 1) [7, 8] =
          some (([7, 8].length, none), w1) ∧
        w1.Flush.1 = none ∧ w1.Flush.2.wc.received = (sink none).received ++ [7, 8] ∧
        w1.Flush.2.Buffered = 0) :=
  have h := Writer.Reset_adopts staleWriter (sink none) (by decide)
  ⟨by decide, sink_acceptsAll _, h.1, h.2.1, h.2.2.1, h.2.2.2.2.1, h.2.2.2.2.2.2.2.1,
    h.2.2.2.2.2.2.2.2 (sink_acceptsAll _) 0 [7, 8]⟩

/-- A successful reset at `staleReader`: after `Reset` onto a source holding three bytes, the
bytes read are those three. -/
theorem Reader.Reset_reads_new_stream_witness :
    staleReader.rc.Close.1 = none ∧ 0 < staleReader.Size ∧
      (staleReader.Reset (chunked [1, 2, 3] [2] true none)).1 = none ∧
      (staleReader.Reset (chunked [1, 2, 3] [2] true none)).2.1.rc =
        chunked [1, 2, 3] [2] true none ∧
      (staleReader.Reset (chunked [1, 2, 3] [2] true none)).2.2.closeCalls =
        staleReader.rc.closeCalls + 1 ∧
      (staleReader.Reset (chunked [1, 2, 3] [2] true none)).2.1.Buffered = 0 ∧
      (staleReader.Reset (chunked [1, 2, 3] [2] true none)).2.1.Size = staleReader.Size ∧
      (∃ r1, (staleReader.Reset (chunked [1, 2, 3] [2] true none)).2.1.readAllBytes (0 + 1) 4 =
        some ([1, 2, 3], Error.EOF, r1)) :=
  have h := Reader.Reset_reads_new_stream staleReader (chunked [1, 2, 3] [2] true none) (by decide)
  ⟨by decide, by decide, h.1, h.2.1, h.2.2.2.1, h.2.2.2.2.1, h.2.2.2.2.2.1,
    h.2.2.2.2.2.2 (by decide) [1, 2, 3] [2] true none 0 4 rfl (by decide) (by decide)⟩

/-- The sticky error at `brokenWriter`: after the failed flush, a `Write` and a `Flush`
report `(0, error 7)` and the stream's log stays at the one failed write. -/
theorem Writer.sticky_error_witness :
    brokenWriter.Flush.1 = some (Error.other 7) ∧
      brokenWriter.Flush.2.calls 0 [WOp.write [9, 9, 9, 9, 9], WOp.flush] =
        some ([(0, some (Error.other 7)), (0, some (Error.other 7))], brokenWriter.Flush.2) ∧
      brokenWriter.Flush.2.wc.log = [WCall.write [1, 2] 1 (some (Error.other 7))] :=
  ⟨by decide,
    Writer.sticky_error brokenWriter (Error.other 7) (by decide) 0
      [WOp.write [9, 9, 9, 9, 9], WOp.flush],
    by decide⟩

/-- The round trip at a sink, size 2 and three bytes: the direct path. -/
theorem Writer.Write_Flush_roundtrip_witness :
    (sink none).AcceptsAll ∧
      ∃ w1, (NewWriterSize (sink none) 2).Write (0 + 1) [1, 2, 3] =
          some (([1, 2, 3].length, none), w1) ∧
        ([1, 2, 3].length ≤ (NewWriterSize (sink none) 2).Size →
          w1.wc.log = (sink none).log ∧ w1.Buffered = [1, 2, 3].length) ∧
        ((NewWriterSize (sink none) 2).Size < [1, 2, 3].length →
          w1.wc.log = (sink none).log ++ [WCall.write [1, 2, 3] [1, 2, 3].length none] ∧
            w1.Buffered = 0) ∧
        w1.Flush.1 = none ∧
        w1.Flush.2.wc.received = (sink none).received ++ [1, 2, 3] ∧
        w1.Flush.2.Buffered = 0 :=
  ⟨sink_acceptsAll _, Writer.Write_Flush_roundtrip (sink none) (sink_acceptsAll _) 2 [1, 2, 3] 0⟩

/-- Reading back five bytes delivered in chunks of 2, 1 and the rest, with `io.EOF`
along with the last byte. -/
theorem Reader.ReadByte_reconstructs_witness :
    (∀ c ∈ [2, 1], 1 ≤ c) ∧ [(1 : Byte), 2, 3, 4, 5].length < 6 ∧
      ∃ r1, (NewReaderSize (chunked [1, 2, 3, 4, 5] [2, 1] true none) 0).readAllBytes
        (0 + 1) 6 = some ([1, 2, 3, 4, 5], Error.EOF, r1) :=
  ⟨by decide, by decide,
    Reader.ReadByte_reconstructs [1, 2, 3, 4, 5] [2, 1] true none 0 0 6 (by decide) (by decide)⟩

/-- A full buffer at 17 bytes delivered five at a time, size 16: `ReadSlice`
returns the first 16 with `ErrBufferFull`. -/
theorem Reader.ReadSlice_buffer_full_witness :
    (∀ c ∈ [5], 1 ≤ c) ∧
      (NewReaderSize (chunked (List.replicate 17 7) [5] true none) 16).Size ≤
        (List.replicate 17 (7 : Byte)).length ∧
      (10 : Byte) ∉ (List.replicate 17 (7 : Byte)).take
        (NewReaderSize (chunked (List.replicate 17 7) [5] true none) 16).Size ∧
      (∃ r1, (NewReaderSize (chunked (List.replicate 17 7) [5] true none) 16).ReadSlice 16 10 =
          some (((List.replicate 17 7).take
            (NewReaderSize (chunked (List.replicate 17 7) [5] true none) 16).Size,
            some Error.ErrBufferFull), r1) ∧ r1.Buffered = 0) ∧
      staleReader.r.WF ∧
      (∃ x, staleReader.ReadSlice 4 10 = some x) :=
  have h := Reader.ReadSlice_buffer_full (List.replicate 17 7) [5] true none 16 10 16
    (by decide) (by decide) (Or.inl (by decide)) (by decide) (by decide)
  ⟨by decide, by decide, by decide, h.1, ⟨by decide, by decide, by decide⟩,
    (h.2 staleReader 4 ⟨by decide, by decide, by decide⟩).2 (by decide)⟩

end Bufioc
